import Mathlib

/-!
Verification development for the non-periodic pair-counting kernel
`countpairs_nopbc` (halotools, `sinha_pairs/source/countpairs_nopbc.c`).

Coordinates are IEEE doubles in the C source; the embedding uses exact
rationals, so every comparison (`r2 >= rupp_sqr[k]`, …) is the exact
counterpart of the C comparison.  Histogram counters are C `unsigned int`
values, embedded as naturals reduced modulo `2^32` at every update.  The
`OUTPUT_RPAVG` accumulator sums `sqrt(r2)` into a `double`; since `ℚ` has
no square root, the accumulator is embedded as the multiset of the `r2`
values whose square roots the C code adds — two runs produce the same
real sum whenever they produce the same multisets.
-/

/-- A 3-d point: one slot of the parallel coordinate arrays `X, Y, Z`. -/
structure Point where
  x : ℚ
  y : ℚ
  z : ℚ
deriving DecidableEq, Repr

/-- Squared Euclidean distance, exactly as the kernel computes it:
`dx*dx + dy*dy + dz*dz` (countpairs_nopbc.c lines 190-193). -/
def sqdist (p q : Point) : ℚ :=
  (p.x - q.x) * (p.x - q.x) + (p.y - q.y) * (p.y - q.y) + (p.z - q.z) * (p.z - q.z)

/-- Modulus of a C `unsigned int` (the histogram counter type,
`unsigned int npairs[nrpbin]`, line 78). -/
def UINT_MOD : ℕ := 2 ^ 32

/-- The counter update `npairs[kbin]++` on a C `unsigned int`. -/
def uintIncr (n : ℕ) : ℕ := (n + 1) % UINT_MOD

/-- Squared bin edges: `rupp_sqr[i] = rupp[i]*rupp[i]` (lines 85-88). -/
def ruppSqr (rupp : ℕ → ℚ) (i : ℕ) : ℚ := rupp i * rupp i

/-- The descending bin scan
`for(kbin=nrpbin-1;kbin>=1;kbin--) if(r2 >= rupp_sqr[kbin-1]) break;`
(lines 200-208).  `scanBin rs r2 m` models the loop started at
`kbin = m`; it returns the bin whose counter the `break` protects, or
`none` when the loop runs off the bottom. -/
def scanBin (rs : ℕ → ℚ) (r2 : ℚ) : ℕ → Option ℕ
  | 0 => none
  | k + 1 => if rs k ≤ r2 then some (k + 1) else scanBin rs r2 k

/-- Kernel accumulator state: the `npairs` histogram together with the
`OUTPUT_RPAVG` distance accumulator (as multisets of `r2` summands). -/
structure KState where
  hist : ℕ → ℕ
  dist : ℕ → Multiset ℚ

/-- The all-zero accumulator state the kernel starts from (lines 79, 94). -/
def KState.init : KState := ⟨fun _ => 0, fun _ => 0⟩

/-- Bin of one pair: the range filter
`if(r2 >= sqr_rpmax || r2 < sqr_rpmin) continue;` (line 194) followed by
the descending scan from `kbin = nrpbin - 1`. -/
def pairBin (K : ℕ) (rs : ℕ → ℚ) (r2 : ℚ) : Option ℕ :=
  if rs (K - 1) ≤ r2 ∨ r2 < rs 0 then none else scanBin rs r2 (K - 1)

/-- Scalar per-pair body (lines 189-209): range filter, descending scan,
then `npairs[kbin]++` and `rpavg[kbin] += SQRT(r2)` at the found bin. -/
def processPair (K : ℕ) (rs : ℕ → ℚ) (st : KState) (r2 : ℚ) : KState :=
  match pairBin K rs r2 with
  | some k => ⟨fun j => if j = k then uintIncr (st.hist j) else st.hist j,
               fun j => if j = k then insert r2 (st.dist j) else st.dist j⟩
  | none => st

/-! ### Basic facts about the bin scan -/

theorem scanBin_isSome_bounds {rs : ℕ → ℚ} {r2 : ℚ} {m k : ℕ}
    (h : scanBin rs r2 m = some k) : 1 ≤ k ∧ k ≤ m := by
  induction m with
  | zero => simp [scanBin] at h
  | succ n ih =>
    simp only [scanBin] at h
    split at h
    · cases h; omega
    · rcases ih h with ⟨h1, h2⟩; omega

theorem scanBin_some_of_le {rs : ℕ → ℚ} {r2 : ℚ} {m : ℕ}
    (hm : 1 ≤ m) (h0 : rs 0 ≤ r2) : ∃ k, 1 ≤ k ∧ scanBin rs r2 m = some k := by
  induction m with
  | zero => omega
  | succ n ih =>
    simp only [scanBin]
    split
    · exact ⟨n + 1, by omega, rfl⟩
    · rcases Nat.eq_zero_or_pos n with hn | hn
      · subst hn; simp_all
      · rcases ih hn with ⟨k, hk, hs⟩
        exact ⟨k, hk, hs⟩

/-- Characterisation of the descending scan under monotone edges:
for `r2` strictly below `rs m`, the scan finds exactly the half-open
bin containing `r2`. -/
theorem scanBin_eq_some_iff {rs : ℕ → ℚ} {r2 : ℚ} {m : ℕ}
    (hmono : ∀ i j, i ≤ j → j ≤ m → rs i ≤ rs j)
    (hlt : r2 < rs m) {k : ℕ} :
    scanBin rs r2 m = some k ↔ 1 ≤ k ∧ k ≤ m ∧ rs (k - 1) ≤ r2 ∧ r2 < rs k := by
  induction m with
  | zero => simp [scanBin]; omega
  | succ n ih =>
    simp only [scanBin]
    by_cases hge : rs n ≤ r2
    · simp only [if_pos hge]
      constructor
      · rintro ⟨rfl⟩
        exact ⟨by omega, le_rfl, by simpa using hge, hlt⟩
      · rintro ⟨h1, h2, h3, h4⟩
        rcases Nat.lt_or_ge k (n + 1) with hk | hk
        · exfalso
          have : rs k ≤ rs n := hmono k n (by omega) (by omega)
          exact absurd (lt_of_lt_of_le h4 this) (not_lt.mpr hge)
        · congr; omega
    · simp only [if_neg hge]
      have hlt' : r2 < rs n := lt_of_not_ge hge
      have hmono' : ∀ i j, i ≤ j → j ≤ n → rs i ≤ rs j :=
        fun i j hij hj => hmono i j hij (by omega)
      rw [ih hmono' hlt']
      constructor
      · rintro ⟨h1, h2, h3, h4⟩; exact ⟨h1, by omega, h3, h4⟩
      · rintro ⟨h1, h2, h3, h4⟩
        refine ⟨h1, ?_, h3, h4⟩
        rcases Nat.lt_or_ge k (n + 1) with hk | hk
        · omega
        · exfalso
          have hkn : k = n + 1 := by omega
          subst hkn
          exact hge (by simpa using h3)

theorem scanBin_none_iff {rs : ℕ → ℚ} {r2 : ℚ} {m : ℕ} (hm : 1 ≤ m)
    (hmono : ∀ i j, i ≤ j → j ≤ m → rs i ≤ rs j) :
    scanBin rs r2 m = none ↔ r2 < rs 0 := by
  constructor
  · intro h
    by_contra hge
    rcases scanBin_some_of_le hm (le_of_not_lt hge) with ⟨k, _, hk⟩
    rw [h] at hk; cases hk
  · intro hlt
    clear hm
    induction m with
    | zero => rfl
    | succ n ih =>
      simp only [scanBin]
      rw [if_neg]
      · rcases Nat.eq_zero_or_pos n with hn | hn
        · subst hn; rfl
        · exact ih (fun i j hij hj => hmono i j hij (by omega))
      · intro hge
        exact absurd (lt_of_lt_of_le hlt (hmono 0 n (by omega) (by omega)))
          (not_lt.mpr hge)

/-! ### Monotonicity bridge from linear edges to squared edges -/

theorem rupp_nonneg_of_mono {rupp : ℕ → ℚ} {m : ℕ}
    (hnn : 0 ≤ rupp 0) (hmono : ∀ j, j ≤ m → ∀ i, i < j → rupp i < rupp j) :
    ∀ i, i ≤ m → 0 ≤ rupp i := by
  intro i hi
  rcases Nat.eq_zero_or_pos i with h0 | h0
  · subst h0; exact hnn
  · exact le_of_lt (lt_of_le_of_lt hnn (hmono i hi 0 h0))

theorem ruppSqr_mono {rupp : ℕ → ℚ} {m : ℕ}
    (hnn : 0 ≤ rupp 0) (hmono : ∀ j, j ≤ m → ∀ i, i < j → rupp i < rupp j) :
    ∀ i j, i ≤ j → j ≤ m → ruppSqr rupp i ≤ ruppSqr rupp j := by
  intro i j hij hj
  rcases Nat.lt_or_ge i j with hlt | hge
  · have hi : 0 ≤ rupp i := rupp_nonneg_of_mono hnn hmono i (by omega)
    have hij' : rupp i ≤ rupp j := le_of_lt (hmono j hj i hlt)
    exact mul_le_mul hij' hij' hi (le_trans hi hij')
  · have : i = j := by omega
    subst this; exact le_rfl

theorem ruppSqr_pos {rupp : ℕ → ℚ} {m : ℕ}
    (hnn : 0 ≤ rupp 0) (hmono : ∀ j, j ≤ m → ∀ i, i < j → rupp i < rupp j)
    {k : ℕ} (hk1 : 1 ≤ k) (hk : k ≤ m) : 0 < ruppSqr rupp k := by
  have h0k : 0 < rupp k := lt_of_le_of_lt hnn (hmono k hk 0 hk1)
  exact mul_pos h0k h0k

/-! ### Pointwise description of the per-pair update -/

theorem processPair_hist (K : ℕ) (rs : ℕ → ℚ) (st : KState) (r2 : ℚ) (j : ℕ) :
    (processPair K rs st r2).hist j =
      if pairBin K rs r2 = some j then uintIncr (st.hist j) else st.hist j := by
  unfold processPair
  rcases h : pairBin K rs r2 with _ | k
  · simp [h]
  · simp only [h, Option.some.injEq]
    by_cases hj : j = k
    · subst hj; simp
    · rw [if_neg hj, if_neg (fun h' => hj h'.symm)]

theorem processPair_dist (K : ℕ) (rs : ℕ → ℚ) (st : KState) (r2 : ℚ) (j : ℕ) :
    (processPair K rs st r2).dist j =
      if pairBin K rs r2 = some j then insert r2 (st.dist j) else st.dist j := by
  unfold processPair
  rcases h : pairBin K rs r2 with _ | k
  · simp [h]
  · simp only [h, Option.some.injEq]
    by_cases hj : j = k
    · subst hj; simp
    · rw [if_neg hj, if_neg (fun h' => hj h'.symm)]

theorem pairBin_ne_some_zero (K : ℕ) (rs : ℕ → ℚ) (r2 : ℚ) :
    pairBin K rs r2 ≠ some 0 := by
  unfold pairBin
  split
  · simp
  · intro h
    have := scanBin_isSome_bounds h
    omega

theorem processPair_hist_zero (K : ℕ) (rs : ℕ → ℚ) (st : KState) (r2 : ℚ) :
    (processPair K rs st r2).hist 0 = st.hist 0 := by
  rw [processPair_hist, if_neg (pairBin_ne_some_zero K rs r2)]

theorem pairBin_out (K : ℕ) (rs : ℕ → ℚ) (r2 : ℚ)
    (h : rs (K - 1) ≤ r2 ∨ r2 < rs 0) : pairBin K rs r2 = none := by
  unfold pairBin; rw [if_pos h]

theorem processPair_out (K : ℕ) (rs : ℕ → ℚ) (st : KState) (r2 : ℚ)
    (h : rs (K - 1) ≤ r2 ∨ r2 < rs 0) : processPair K rs st r2 = st := by
  unfold processPair; rw [pairBin_out K rs r2 h]

theorem pairBin_in {K : ℕ} {rupp : ℕ → ℚ} {r2 : ℚ} {k : ℕ}
    (hnn : 0 ≤ rupp 0)
    (hmono : ∀ j, j ≤ K - 1 → ∀ i, i < j → rupp i < rupp j)
    (hk1 : 1 ≤ k) (hk : k ≤ K - 1)
    (hlo : ruppSqr rupp (k - 1) ≤ r2) (hhi : r2 < ruppSqr rupp k) :
    pairBin K (ruppSqr rupp) r2 = some k := by
  have hmonos := ruppSqr_mono hnn hmono
  have hltK : r2 < ruppSqr rupp (K - 1) :=
    lt_of_lt_of_le hhi (hmonos k (K - 1) hk (le_refl _))
  have h0 : ruppSqr rupp 0 ≤ r2 :=
    le_trans (hmonos 0 (k - 1) (by omega) (by omega)) hlo
  unfold pairBin
  rw [if_neg (by push_neg; exact ⟨hltK, not_lt.mp (not_lt.mpr h0)⟩)]
  exact (scanBin_eq_some_iff (fun i j hij hj => hmonos i j hij hj) hltK).mpr
    ⟨hk1, hk, hlo, hhi⟩

/-! ### Claims C1, C6, C10: the per-pair kernel body -/

/-- C1: for a pair with squared distance `r²`, if `r² ∈ [rupp[0]², rupp[K-1]²)`
the kernel increments exactly the unique histogram bin `k ∈ [1, K-1]` with
`rupp[k-1]² ≤ r² < rupp[k]²` (and adds `√r²` to that bin's distance
accumulator); ties at an exact edge go to the upper bin because the bins are
closed below and open above; if `r²` is outside the range no bin and no
distance accumulator is updated. -/
theorem claim_C1_kernel_bin_update (K : ℕ) (rupp : ℕ → ℚ) (st : KState) (r2 : ℚ)
    (hnn : 0 ≤ rupp 0)
    (hmono : ∀ j, j ≤ K - 1 → ∀ i, i < j → rupp i < rupp j) :
    (∀ k, 1 ≤ k → k ≤ K - 1 → ruppSqr rupp (k - 1) ≤ r2 → r2 < ruppSqr rupp k →
      (processPair K (ruppSqr rupp) st r2).hist k = uintIncr (st.hist k) ∧
      (∀ j, j ≠ k → (processPair K (ruppSqr rupp) st r2).hist j = st.hist j) ∧
      (processPair K (ruppSqr rupp) st r2).dist k = insert r2 (st.dist k) ∧
      (∀ j, j ≠ k → (processPair K (ruppSqr rupp) st r2).dist j = st.dist j)) ∧
    (∀ k k', 1 ≤ k → ruppSqr rupp (k - 1) ≤ r2 → r2 < ruppSqr rupp k →
      1 ≤ k' → ruppSqr rupp (k' - 1) ≤ r2 → r2 < ruppSqr rupp k' →
      k ≤ K - 1 → k' ≤ K - 1 → k = k') ∧
    ((r2 < ruppSqr rupp 0 ∨ ruppSqr rupp (K - 1) ≤ r2) →
      processPair K (ruppSqr rupp) st r2 = st) := by
  have hmonos := ruppSqr_mono hnn hmono
  refine ⟨?_, ?_, ?_⟩
  · intro k hk1 hk hlo hhi
    have hb := pairBin_in hnn hmono hk1 hk hlo hhi
    refine ⟨?_, ?_, ?_, ?_⟩
    · rw [processPair_hist, if_pos hb]
    · intro j hj
      rw [processPair_hist, if_neg]
      rw [hb]; intro h; exact hj (Option.some.inj h).symm
    · rw [processPair_dist, if_pos hb]
    · intro j hj
      rw [processPair_dist, if_neg]
      rw [hb]; intro h; exact hj (Option.some.inj h).symm
  · intro k k' hk1 hlo hhi hk1' hlo' hhi' hkK hkK'
    by_contra hne
    rcases Nat.lt_or_ge k k' with hlt | hge
    · have : ruppSqr rupp k ≤ ruppSqr rupp (k' - 1) :=
        hmonos k (k' - 1) (by omega) (by omega)
      exact absurd (lt_of_lt_of_le hhi (le_trans this hlo')) (lt_irrefl r2)
    · have hlt' : k' < k := by omega
      have : ruppSqr rupp k' ≤ ruppSqr rupp (k - 1) :=
        hmonos k' (k - 1) (by omega) (by omega)
      exact absurd (lt_of_lt_of_le hhi' (le_trans this hlo)) (lt_irrefl r2)
  · intro h
    exact processPair_out K (ruppSqr rupp) st r2 h.symm

theorem claim_C1_witness :
    (processPair 3 (ruppSqr fun i => (i : ℚ)) KState.init (5/2)).hist 2 = 1 ∧
    (processPair 3 (ruppSqr fun i => (i : ℚ)) KState.init (5/2)).hist 1 = 0 ∧
    processPair 3 (ruppSqr fun i => (i : ℚ)) KState.init (9/2) = KState.init := by
  have h := claim_C1_kernel_bin_update 3 (fun i => (i : ℚ)) KState.init (5/2)
    (le_refl 0) (fun j _ i hij => Nat.cast_lt.mpr hij)
  have h9 := claim_C1_kernel_bin_update 3 (fun i => (i : ℚ)) KState.init (9/2)
    (le_refl 0) (fun j _ i hij => Nat.cast_lt.mpr hij)
  obtain ⟨ha, hb, -, -⟩ := h.1 2 (by norm_num) (by norm_num)
    (by norm_num [ruppSqr]) (by norm_num [ruppSqr])
  refine ⟨?_, ?_, ?_⟩
  · rw [ha]; rfl
  · rw [hb 1 (by omega)]; rfl
  · exact h9.2.2 (Or.inr (by norm_num [ruppSqr]))

/-- C6: the kernel applies no self-pair filter; comparing a point against
itself yields `r² = 0`, which the range filter rejects exactly when
`rupp[0]² > 0`; with `rupp[0] = 0` the self-pair lands in bin 1. -/
theorem claim_C6_self_pair (K : ℕ) (rupp : ℕ → ℚ) (st : KState) (p : Point)
    (hK : 2 ≤ K) (hnn : 0 ≤ rupp 0)
    (hmono : ∀ j, j ≤ K - 1 → ∀ i, i < j → rupp i < rupp j) :
    sqdist p p = 0 ∧
    (0 < rupp 0 → processPair K (ruppSqr rupp) st (sqdist p p) = st) ∧
    (rupp 0 = 0 →
      (processPair K (ruppSqr rupp) st (sqdist p p)).hist 1 = uintIncr (st.hist 1) ∧
      ∀ j, j ≠ 1 → (processPair K (ruppSqr rupp) st (sqdist p p)).hist j = st.hist j) := by
  have hsq : sqdist p p = 0 := by simp [sqdist]
  refine ⟨hsq, ?_, ?_⟩
  · intro hpos
    apply processPair_out
    right
    rw [hsq]
    exact mul_pos hpos hpos
  · intro h0
    have hb : pairBin K (ruppSqr rupp) (sqdist p p) = some 1 := by
      rw [hsq]
      exact pairBin_in hnn hmono (le_refl 1) (by omega)
        (by simp [ruppSqr, h0]) (ruppSqr_pos hnn hmono (le_refl 1) (by omega))
    refine ⟨?_, ?_⟩
    · rw [processPair_hist, if_pos hb]
    · intro j hj
      rw [processPair_hist, if_neg]
      rw [hb]; intro h; exact hj (Option.some.inj h).symm

theorem claim_C6_witness :
    sqdist ⟨0, 0, 0⟩ ⟨0, 0, 0⟩ = 0 ∧
    (processPair 2 (ruppSqr fun i => (i : ℚ)) KState.init
      (sqdist ⟨0, 0, 0⟩ ⟨0, 0, 0⟩)).hist 1 = 1 ∧
    processPair 2 (ruppSqr fun i => (i : ℚ) + 1) KState.init
      (sqdist ⟨0, 0, 0⟩ ⟨0, 0, 0⟩) = KState.init := by
  have h := claim_C6_self_pair 2 (fun i => (i : ℚ)) KState.init ⟨0, 0, 0⟩
    (le_refl 2) (le_refl 0)
    (fun j _ i hij => Nat.cast_lt.mpr hij)
  have h' := claim_C6_self_pair 2 (fun i => (i : ℚ) + 1) KState.init ⟨0, 0, 0⟩
    (le_refl 2) (by norm_num)
    (fun j _ i hij => add_lt_add_right (Nat.cast_lt.mpr hij) 1)
  refine ⟨h.1, ?_, h'.2.1 (by norm_num)⟩
  obtain ⟨h1, -⟩ := h.2.2 Nat.cast_zero
  rw [h1]; rfl

/-- C10: every pair passing the range filter makes the descending scan
terminate through its `break` at some bin `k ≥ 1` (the `k = 1` test succeeds
once `r² ≥ rupp_sqr[0]`), and the scalar path never increments the internal
counter of bin 0. -/
theorem claim_C10_scan_hits_bin (K : ℕ) (rs : ℕ → ℚ) (r2 : ℚ)
    (hK : 2 ≤ K) (hr : rs 0 ≤ r2) :
    (∃ k, 1 ≤ k ∧ scanBin rs r2 (K - 1) = some k) ∧
    ∀ (st : KState) (r2x : ℚ), (processPair K rs st r2x).hist 0 = st.hist 0 :=
  ⟨scanBin_some_of_le (by omega) hr, fun st r2x => processPair_hist_zero K rs st r2x⟩

theorem claim_C10_witness :
    (∃ k, 1 ≤ k ∧ scanBin (fun _ => (0 : ℚ)) 0 (2 - 1) = some k) ∧
    (processPair 2 (fun _ => (0 : ℚ)) KState.init 0).hist 0 = 0 := by
  have h := claim_C10_scan_hits_bin 2 (fun _ => (0 : ℚ)) 0 (le_refl 2) (le_refl 0)
  exact ⟨h.1, h.2 KState.init 0⟩

/-! ### Blocked iteration (`BLOCK_SIZE`, `NVEC`) -/

/-- Splits a list into consecutive chunks: chunk size `n+1` for `chunksOf n.succ`,
modelling both the `BLOCK_SIZE = 16` blocking of the scalar inner loop
(lines 185-188) and the `NVEC`-wide vector loop. -/
def chunksOf {α : Type} : ℕ → List α → List (List α)
  | _, [] => []
  | 0, l => [l]
  | n + 1, x :: xs => ((x :: xs).take (n + 1)) :: chunksOf (n + 1) (xs.drop n)
termination_by n l => l.length
decreasing_by simp [List.length_drop]; omega

theorem chunksOf_flatten {α : Type} (n : ℕ) (l : List α) :
    (chunksOf n l).flatten = l := by
  suffices H : ∀ (m : ℕ) (l : List α), l.length ≤ m → (chunksOf n l).flatten = l from
    H l.length l le_rfl
  intro m
  induction m with
  | zero =>
    intro l hl
    have : l = [] := List.eq_nil_of_length_eq_zero (by omega)
    subst this
    cases n <;> simp [chunksOf]
  | succ m ih =>
    intro l hl
    match l with
    | [] => cases n <;> simp [chunksOf]
    | x :: xs =>
      cases n with
      | zero => simp [chunksOf]
      | succ k =>
        rw [show chunksOf (k + 1) (x :: xs) =
              ((x :: xs).take (k + 1)) :: chunksOf (k + 1) (xs.drop k) from by
            rw [chunksOf]]
        rw [List.flatten_cons, ih (xs.drop k) (by simp [List.length_drop]; simp at hl; omega)]
        simp [List.take_cons]

/-- Scalar path of the pair kernel (lines 179-210): for every point of the
first cell, iterate the second cell in blocks of `BLOCK_SIZE = 16` and run
the per-pair body. -/
def scalarCellPair (K : ℕ) (rs : ℕ → ℚ) (st : KState) (ps qs : List Point) : KState :=
  ps.foldl (fun st1 p =>
    (chunksOf 16 qs).foldl (fun st2 blk =>
      blk.foldl (fun st3 q => processPair K rs st3 (sqdist p q)) st2) st1) st

/-! ### The AVX path (lines 212-332) -/

/-- `AVX_BITWISE_AND` on comparison masks. -/
def laneAnd (a b : List Bool) : List Bool := List.zipWith (fun x y => x && y) a b

/-- The vectorised descending bin loop (lines 273-286): per iteration,
`m1 = (r2 ≥ rupp_sqr[kbin-1])`, `m_bin = m1 ∧ m_mask_left`,
`npairs[kbin] += popcount(m_bin)`, the `OUTPUT_RPAVG` lane bins are blended
(`m_rpbin`), `m_mask_left = (r2 < rupp_sqr[kbin-1])`, and the loop breaks
when `m_mask_left` is empty. -/
def avxBinLoop (rs : ℕ → ℚ) (r2s : List ℚ) :
    ℕ → List Bool → (ℕ → ℕ) → List ℕ → ((ℕ → ℕ) × List ℕ)
  | 0, _, hist, rpbins => (hist, rpbins)
  | k + 1, maskLeft, hist, rpbins =>
    let m1 := r2s.map fun r2 => decide (rs k ≤ r2)
    let mbin := laneAnd m1 maskLeft
    let hist1 := fun j => if j = k + 1 then (hist j + mbin.countP id) % UINT_MOD else hist j
    let rpbins1 := List.zipWith (fun sel old => if sel then k + 1 else old) mbin rpbins
    let maskLeft1 := r2s.map fun r2 => decide (r2 < rs k)
    if maskLeft1.any id then avxBinLoop rs r2s k maskLeft1 hist1 rpbins1
    else (hist1, rpbins1)

/-- The post-loop `OUTPUT_RPAVG` lane scatter (lines 300-304):
`rpavg[ibin[jj]] += Dperp[jj]` for every lane. -/
def distAddLanes (d : ℕ → Multiset ℚ) (bins : List ℕ) (vals : List ℚ) : ℕ → Multiset ℚ :=
  (bins.zip vals).foldl
    (fun acc pr => fun j => if j = pr.1 then insert pr.2 (acc j) else acc j) d

/-- One vectorised block of lanes (lines 233-306): squared distances, the
two early-exit range masks, the blend of rejected lanes to `sqr_rpmax`,
the bin loop, and the lane scatter into the distance accumulator. -/
def avxBlock (K : ℕ) (rs : ℕ → ℚ) (p : Point) (st : KState) (qs : List Point) : KState :=
  let r2s := qs.map fun q => sqdist p q
  let mLt := r2s.map fun r2 => decide (r2 < rs (K - 1))
  if mLt.any id = false then st
  else
    let mRange := laneAnd mLt (r2s.map fun r2 => decide (rs 0 ≤ r2))
    if mRange.any id = false then st
    else
      let r2sB := List.zipWith (fun m r2 => if m then r2 else rs (K - 1)) mRange r2s
      let mLeft := r2sB.map fun r2 => decide (r2 < rs (K - 1))
      let res := avxBinLoop rs r2sB (K - 1) mLeft st.hist (r2sB.map fun _ => 0)
      ⟨res.1, distAddLanes st.dist res.2 r2sB⟩

/-- AVX path of the pair kernel: for every point of the first cell, the
vector loop `for(j=0;j<=(nelements-NVEC);j+=NVEC)` over full `NVEC`-wide
blocks, then the scalar remainder loop (lines 309-330). -/
def avxCellPair (nvec K : ℕ) (rs : ℕ → ℚ) (st : KState) (ps qs : List Point) : KState :=
  ps.foldl (fun st1 p =>
    let nfull := nvec * (qs.length / nvec)
    let st2 := (chunksOf nvec (qs.take nfull)).foldl
      (fun s blk => avxBlock K rs p s blk) st1
    (qs.drop nfull).foldl (fun s q => processPair K rs s (sqdist p q)) st2) st

/-! ### Lane bookkeeping lemmas -/

theorem laneAnd_map {α : Type} (f g : α → Bool) (l : List α) :
    laneAnd (l.map f) (l.map g) = l.map fun x => f x && g x := by
  induction l with
  | nil => rfl
  | cons a l ih => simpa [laneAnd] using ih

theorem any_map_id_eq_false {α : Type} (f : α → Bool) (l : List α) :
    (l.map f).any id = false ↔ ∀ x ∈ l, f x = false := by
  induction l with
  | nil => simp
  | cons a l ih => simp [ih, Bool.or_eq_false_iff]

theorem zipWith_same_right {α β : Type} (l : List α) (l2 : List β)
    (h : l2.length = l.length) : List.zipWith (fun _ b => b) l l2 = l2 := by
  induction l generalizing l2 with
  | nil => cases l2 with
    | nil => rfl
    | cons b l2 => simp at h
  | cons a l ih => cases l2 with
    | nil => simp at h
    | cons b l2 =>
      simp at h
      simp [List.zipWith, ih l2 h]

theorem zipWith_zipWith_same {α β γ δ : Type} (f : α → γ → δ) (g : α → β → γ)
    (l : List α) (l2 : List β) :
    List.zipWith f l (List.zipWith g l l2) =
      List.zipWith (fun a b => f a (g a b)) l l2 := by
  induction l generalizing l2 with
  | nil => rfl
  | cons a l ih => cases l2 with
    | nil => rfl
    | cons b l2 => simp [List.zipWith, ih]

theorem zipWith_congr_mem {α β γ : Type} (f g : α → β → γ) (l : List α) (l2 : List β)
    (h : ∀ a ∈ l, ∀ b, f a b = g a b) :
    List.zipWith f l l2 = List.zipWith g l l2 := by
  induction l generalizing l2 with
  | nil => rfl
  | cons a l ih => cases l2 with
    | nil => rfl
    | cons b l2 =>
      simp only [List.zipWith]
      rw [h a (by simp) b, ih l2 (fun a ha b => h a (by simp [ha]) b)]

/-- Per-lane outcome of the vectorised bin loop entered at level `m`:
the lane's bin if its (blended) squared distance is below `rs m`. -/
def laneBin (rs : ℕ → ℚ) (m : ℕ) (r2 : ℚ) : Option ℕ :=
  if r2 < rs m then scanBin rs r2 m else none

theorem scanBin_succ_self {rs : ℕ → ℚ} {r2 : ℚ} {k : ℕ} :
    scanBin rs r2 (k + 1) = some (k + 1) ↔ rs k ≤ r2 := by
  simp only [scanBin]
  split
  · simp_all
  · constructor
    · intro h
      have := scanBin_isSome_bounds h
      omega
    · intro h; simp_all

theorem laneBin_step {rs : ℕ → ℚ} {r2 : ℚ} {k j : ℕ}
    (hmono : rs k ≤ rs (k + 1)) (hj1 : 1 ≤ j) (hjk : j ≤ k) :
    (laneBin rs k r2 = some j ↔ laneBin rs (k + 1) r2 = some j) := by
  unfold laneBin
  by_cases hlt : r2 < rs k
  · rw [if_pos hlt, if_pos (lt_of_lt_of_le hlt hmono)]
    have : scanBin rs r2 (k + 1) = scanBin rs r2 k := by
      simp only [scanBin]
      rw [if_neg (not_le.mpr hlt)]
    rw [this]
  · rw [if_neg hlt]
    by_cases hlt' : r2 < rs (k + 1)
    · rw [if_pos hlt']
      constructor
      · intro h; cases h
      · intro h
        have : rs k ≤ r2 := le_of_not_lt hlt
        rw [scanBin, if_pos this] at h
        have := Option.some.inj h
        omega
    · rw [if_neg hlt']

theorem avxBinLoop_succ (rs : ℕ → ℚ) (r2s : List ℚ) (k : ℕ) (maskLeft : List Bool)
    (hist : ℕ → ℕ) (rpbins : List ℕ) :
    avxBinLoop rs r2s (k + 1) maskLeft hist rpbins =
      if (r2s.map fun r2 => decide (r2 < rs k)).any id then
        avxBinLoop rs r2s k (r2s.map fun r2 => decide (r2 < rs k))
          (fun j => if j = k + 1 then
              (hist j + (laneAnd (r2s.map fun r2 => decide (rs k ≤ r2)) maskLeft).countP id)
                % UINT_MOD
            else hist j)
          (List.zipWith (fun sel old => if sel then k + 1 else old)
            (laneAnd (r2s.map fun r2 => decide (rs k ≤ r2)) maskLeft) rpbins)
      else
        (fun j => if j = k + 1 then
            (hist j + (laneAnd (r2s.map fun r2 => decide (rs k ≤ r2)) maskLeft).countP id)
              % UINT_MOD
          else hist j,
         List.zipWith (fun sel old => if sel then k + 1 else old)
           (laneAnd (r2s.map fun r2 => decide (rs k ≤ r2)) maskLeft) rpbins) := by
  rw [avxBinLoop]

theorem laneBin_succ_self {rs : ℕ → ℚ} {r2 : ℚ} {k : ℕ} :
    laneBin rs (k + 1) r2 = some (k + 1) ↔ (rs k ≤ r2 ∧ r2 < rs (k + 1)) := by
  unfold laneBin
  by_cases h2 : r2 < rs (k + 1)
  · rw [if_pos h2, scanBin_succ_self]
    tauto
  · rw [if_neg h2]
    simp [h2]

/-- Full description of the vectorised bin loop entered at level `m` with
the mask `r2 < rs m`: every bin `j ∈ [1, m]` receives the popcount of the
lanes whose blended `r2` classifies to `j`, and the lane-bin vector records
that classification (0 for unclassified lanes). -/
theorem avxBinLoop_spec (rs : ℕ → ℚ) (r2s : List ℚ) :
    ∀ (m : ℕ) (hist : ℕ → ℕ) (rpbins : List ℕ),
      (∀ i j, i ≤ j → j ≤ m → rs i ≤ rs j) →
      (∀ j, hist j < UINT_MOD) →
      rpbins.length = r2s.length →
      (∀ j, (avxBinLoop rs r2s m (r2s.map fun r2 => decide (r2 < rs m)) hist rpbins).1 j
        = if 1 ≤ j ∧ j ≤ m then
            (hist j + r2s.countP fun r2 => decide (laneBin rs m r2 = some j)) % UINT_MOD
          else hist j) ∧
      (avxBinLoop rs r2s m (r2s.map fun r2 => decide (r2 < rs m)) hist rpbins).2
        = List.zipWith (fun r2 old => match laneBin rs m r2 with
            | some j => j
            | none => old) r2s rpbins := by
  intro m
  induction m with
  | zero =>
    intro hist rpbins hmono hb hlen
    have hnone : ∀ r2 : ℚ, laneBin rs 0 r2 = none := by
      intro r2; unfold laneBin; split <;> rfl
    constructor
    · intro j
      rw [if_neg (by omega)]
      rfl
    · show rpbins = _
      have hz : List.zipWith (fun r2 old => match laneBin rs 0 r2 with
            | some j => j
            | none => old) r2s rpbins
          = List.zipWith (fun _ old => old) r2s rpbins := by
        apply zipWith_congr_mem
        intro a _ b
        rw [hnone a]
      rw [hz, zipWith_same_right r2s rpbins hlen]
  | succ k ih =>
    intro hist rpbins hmono hb hlen
    have hm1 : rs k ≤ rs (k + 1) := hmono k (k + 1) (by omega) le_rfl
    have hMpos : 0 < UINT_MOD := by norm_num [UINT_MOD]
    rw [avxBinLoop_succ]
    have hmbin : laneAnd (r2s.map fun r2 => decide (rs k ≤ r2))
        (r2s.map fun r2 => decide (r2 < rs (k + 1)))
        = r2s.map fun r2 => decide (rs k ≤ r2 ∧ r2 < rs (k + 1)) := by
      rw [laneAnd_map]
      apply List.map_congr_left
      intro r2 _
      rw [Bool.decide_and]
    have hcnt : (laneAnd (r2s.map fun r2 => decide (rs k ≤ r2))
        (r2s.map fun r2 => decide (r2 < rs (k + 1)))).countP id
        = r2s.countP fun r2 => decide (laneBin rs (k + 1) r2 = some (k + 1)) := by
      rw [hmbin, List.countP_map]
      apply List.countP_congr
      intro r2 _
      simp only [Function.comp_apply, id_eq, decide_eq_true_eq]
      rw [laneBin_succ_self]
    have hcnt_low : ∀ j, 1 ≤ j → j ≤ k →
        (r2s.countP fun r2 => decide (laneBin rs k r2 = some j))
          = r2s.countP fun r2 => decide (laneBin rs (k + 1) r2 = some j) := by
      intro j hj1 hjk
      apply List.countP_congr
      intro r2 _
      simp only [decide_eq_true_eq]
      exact laneBin_step hm1 hj1 hjk
    -- the blended per-lane bins after this iteration
    have hpoint : ∀ (r2 : ℚ) (old : ℕ),
        (match laneBin rs k r2 with
          | some j => j
          | none => (if decide (rs k ≤ r2 ∧ r2 < rs (k + 1)) then k + 1 else old)) =
        (match laneBin rs (k + 1) r2 with
          | some j => j
          | none => old) := by
      intro r2 old
      by_cases h1 : rs k ≤ r2
      · have hnk : laneBin rs k r2 = none := by
          unfold laneBin; rw [if_neg (not_lt.mpr h1)]
        rw [hnk]
        by_cases h2 : r2 < rs (k + 1)
        · have : laneBin rs (k + 1) r2 = some (k + 1) := laneBin_succ_self.mpr ⟨h1, h2⟩
          rw [this, if_pos (by exact decide_eq_true (p := rs k ≤ r2 ∧ r2 < rs (k+1)) ⟨h1, h2⟩)]
        · have : laneBin rs (k + 1) r2 = none := by
            unfold laneBin; rw [if_neg h2]
          rw [this, if_neg (by simp [h2])]
      · have hlt : r2 < rs k := lt_of_not_ge h1
        have hnk : laneBin rs k r2 = scanBin rs r2 k := by
          unfold laneBin; rw [if_pos hlt]
        have hnk1 : laneBin rs (k + 1) r2 = scanBin rs r2 k := by
          unfold laneBin
          rw [if_pos (lt_of_lt_of_le hlt hm1)]
          simp only [scanBin]
          rw [if_neg h1]
        rw [hnk, hnk1, if_neg (by simp [h1])]
    by_cases hany : (r2s.map fun r2 => decide (r2 < rs k)).any id
    · rw [if_pos hany]
      have hb1 : ∀ j, (fun j => if j = k + 1 then
          (hist j + (laneAnd (r2s.map fun r2 => decide (rs k ≤ r2))
            (r2s.map fun r2 => decide (r2 < rs (k + 1)))).countP id) % UINT_MOD
          else hist j) j < UINT_MOD := by
        intro j
        by_cases hj : j = k + 1
        · simp only [hj, if_pos rfl]
          exact Nat.mod_lt _ hMpos
        · simp only [if_neg hj]
          exact hb j
      have hlen1 : (List.zipWith (fun sel old => if sel then k + 1 else old)
          (laneAnd (r2s.map fun r2 => decide (rs k ≤ r2))
            (r2s.map fun r2 => decide (r2 < rs (k + 1)))) rpbins).length = r2s.length := by
        rw [hmbin]
        simp [hlen]
      obtain ⟨ihh, ihr⟩ := ih _ _
        (fun i j hij hj => hmono i j hij (by omega)) hb1 hlen1
      constructor
      · intro j
        rw [ihh j]
        by_cases hj : 1 ≤ j ∧ j ≤ k
        · have hjne : j ≠ k + 1 := by omega
          rw [if_pos hj, if_neg hjne, hcnt_low j hj.1 hj.2,
            if_pos (show 1 ≤ j ∧ j ≤ k + 1 by omega)]
        · by_cases hj1 : j = k + 1
          · subst hj1
            rw [if_neg (show ¬ (1 ≤ k + 1 ∧ k + 1 ≤ k) by omega), if_pos rfl, hcnt,
              if_pos (show 1 ≤ k + 1 ∧ k + 1 ≤ k + 1 by omega)]
          · rw [if_neg hj, if_neg hj1, if_neg (show ¬ (1 ≤ j ∧ j ≤ k + 1) by omega)]
      · rw [ihr, hmbin,
          List.zipWith_map_left r2s rpbins
            (fun r2 => decide (rs k ≤ r2 ∧ r2 < rs (k + 1)))
            (fun sel old => if sel then k + 1 else old),
          zipWith_zipWith_same]
        apply zipWith_congr_mem
        intro r2 _ old
        exact hpoint r2 old
    · rw [if_neg hany]
      rw [Bool.not_eq_true] at hany
      have hall : ∀ r2 ∈ r2s, ¬ (r2 < rs k) := by
        intro r2 hr2
        have := (any_map_id_eq_false (fun r2 => decide (r2 < rs k)) r2s).mp hany r2 hr2
        simpa using this
      constructor
      · intro j
        dsimp only
        by_cases hj1 : j = k + 1
        · subst hj1
          rw [if_pos rfl, hcnt, if_pos (show 1 ≤ k + 1 ∧ k + 1 ≤ k + 1 by omega)]
        · rw [if_neg hj1]
          by_cases hj : 1 ≤ j ∧ j ≤ k
          · rw [if_pos (by omega), ← hcnt_low j hj.1 hj.2]
            have : (r2s.countP fun r2 => decide (laneBin rs k r2 = some j)) = 0 := by
              apply List.countP_eq_zero.mpr
              intro r2 hr2
              simp only [decide_eq_true_eq]
              intro hsome
              unfold laneBin at hsome
              rw [if_neg (hall r2 hr2)] at hsome
              cases hsome
            rw [this, Nat.add_zero, Nat.mod_eq_of_lt (hb j)]
          · rw [if_neg (by omega)]
      · dsimp only
        rw [hmbin, List.zipWith_map_left r2s rpbins
            (fun r2 => decide (rs k ≤ r2 ∧ r2 < rs (k + 1)))
            (fun sel old => if sel then k + 1 else old)]
        apply zipWith_congr_mem
        intro r2 hr2 old
        have h1 : rs k ≤ r2 := le_of_not_lt (hall r2 hr2)
        by_cases h2 : r2 < rs (k + 1)
        · have : laneBin rs (k + 1) r2 = some (k + 1) := laneBin_succ_self.mpr ⟨h1, h2⟩
          rw [this, if_pos (by exact decide_eq_true (p := rs k ≤ r2 ∧ r2 < rs (k+1)) ⟨h1, h2⟩)]
        · have : laneBin rs (k + 1) r2 = none := by
            unfold laneBin; rw [if_neg h2]
          rw [this, if_neg (by simp [h2])]

/-! ### Scalar fold bookkeeping -/

/-- All histogram slots hold representable `unsigned int` values. -/
def histBounded (st : KState) : Prop := ∀ j, st.hist j < UINT_MOD

theorem UINT_MOD_pos : 0 < UINT_MOD := by norm_num [UINT_MOD]

theorem processPair_hist_lt (K : ℕ) (rs : ℕ → ℚ) (st : KState) (r2 : ℚ) (j : ℕ)
    (h : st.hist j < UINT_MOD) : (processPair K rs st r2).hist j < UINT_MOD := by
  rw [processPair_hist]
  split
  · exact Nat.mod_lt _ UINT_MOD_pos
  · exact h

theorem processPair_bounded (K : ℕ) (rs : ℕ → ℚ) (st : KState) (r2 : ℚ)
    (h : histBounded st) : histBounded (processPair K rs st r2) :=
  fun j => processPair_hist_lt K rs st r2 j (h j)

theorem foldPairs_hist (K : ℕ) (rs : ℕ → ℚ) (p : Point) (qs : List Point) :
    ∀ (st : KState) (j : ℕ), st.hist j < UINT_MOD →
      (qs.foldl (fun s q => processPair K rs s (sqdist p q)) st).hist j
        = (st.hist j
            + qs.countP fun q => decide (pairBin K rs (sqdist p q) = some j)) % UINT_MOD := by
  induction qs with
  | nil =>
    intro st j h
    simp [Nat.mod_eq_of_lt h]
  | cons q qs ih =>
    intro st j h
    simp only [List.foldl_cons, List.countP_cons]
    rw [ih _ j (processPair_hist_lt K rs st _ j h), processPair_hist]
    by_cases hq : pairBin K rs (sqdist p q) = some j
    · rw [if_pos hq, if_pos (by simpa using hq)]
      unfold uintIncr
      rw [Nat.mod_add_mod]
      congr 1
      omega
    · rw [if_neg hq, if_neg (by simpa using hq), Nat.add_zero]

theorem foldPairs_dist (K : ℕ) (rs : ℕ → ℚ) (p : Point) (qs : List Point) :
    ∀ (st : KState) (j : ℕ),
      (qs.foldl (fun s q => processPair K rs s (sqdist p q)) st).dist j
        = st.dist j
          + (((qs.filter fun q => decide (pairBin K rs (sqdist p q) = some j)).map
              fun q => sqdist p q : List ℚ) : Multiset ℚ) := by
  induction qs with
  | nil => intro st j; simp
  | cons q qs ih =>
    intro st j
    simp only [List.foldl_cons, List.filter_cons]
    rw [ih, processPair_dist]
    by_cases hq : pairBin K rs (sqdist p q) = some j
    · rw [if_pos hq, if_pos (by simpa using hq)]
      simp only [Multiset.insert_eq_cons, List.map_cons, ← Multiset.cons_coe,
        Multiset.add_cons, Multiset.cons_add]
    · rw [if_neg hq, if_neg (by simpa using hq)]

theorem foldl_preserve_bounded {α : Type} (f : KState → α → KState)
    (hf : ∀ s a, histBounded s → histBounded (f s a)) :
    ∀ (L : List α) (st : KState), histBounded st → histBounded (L.foldl f st) := by
  intro L
  induction L with
  | nil => intro st h; exact h
  | cons a L ih => intro st h; exact ih _ (hf st a h)

/-! ### More zip helpers -/

theorem zipWith_map_same {α β γ δ : Type} (f : β → γ → δ) (g : α → β) (h : α → γ)
    (l : List α) :
    List.zipWith f (l.map g) (l.map h) = l.map fun a => f (g a) (h a) := by
  induction l with
  | nil => rfl
  | cons a l ih => simp [List.zipWith, ih]

theorem zipWith_map_right_same {α γ δ : Type} (f : α → γ → δ) (h : α → γ)
    (l : List α) :
    List.zipWith f l (l.map h) = l.map fun a => f a (h a) := by
  induction l with
  | nil => rfl
  | cons a l ih => simp [List.zipWith, ih]

theorem zip_map_left_same {α β : Type} (f : α → β) (l : List α) :
    (l.map f).zip l = l.map fun a => (f a, a) := by
  induction l with
  | nil => rfl
  | cons a l ih => simp [List.zip_cons_cons, ih]

theorem distFold_spec (prs : List (ℕ × ℚ)) :
    ∀ (d : ℕ → Multiset ℚ) (j : ℕ),
      (prs.foldl (fun acc pr => fun i => if i = pr.1 then insert pr.2 (acc i) else acc i) d) j
        = d j + (((prs.filter fun pr => decide (pr.1 = j)).map Prod.snd : List ℚ) : Multiset ℚ) := by
  induction prs with
  | nil => intro d j; simp
  | cons pr prs ih =>
    intro d j
    simp only [List.foldl_cons, List.filter_cons]
    rw [ih]
    by_cases hj : pr.1 = j
    · rw [if_pos hj.symm, if_pos (by simpa using hj)]
      simp only [Multiset.insert_eq_cons, List.map_cons, ← Multiset.cons_coe,
        Multiset.add_cons, Multiset.cons_add]
    · rw [if_neg (fun h => hj h.symm), if_neg (by simpa using hj)]

theorem distAddLanes_spec (bins : List ℕ) (vals : List ℚ) (d : ℕ → Multiset ℚ) (j : ℕ) :
    distAddLanes d bins vals j
      = d j + ((((bins.zip vals).filter fun pr => decide (pr.1 = j)).map Prod.snd
          : List ℚ) : Multiset ℚ) :=
  distFold_spec (bins.zip vals) d j

theorem zipWith_map_left_same {α γ δ : Type} (f : γ → α → δ) (h : α → γ)
    (l : List α) :
    List.zipWith f (l.map h) l = l.map fun a => f (h a) a := by
  induction l with
  | nil => rfl
  | cons a l ih => simp [List.zipWith, ih]

theorem foldPairs_out (K : ℕ) (rs : ℕ → ℚ) (p : Point) (qs : List Point) (st : KState)
    (h : ∀ q ∈ qs, pairBin K rs (sqdist p q) = none) :
    qs.foldl (fun s q => processPair K rs s (sqdist p q)) st = st := by
  induction qs generalizing st with
  | nil => rfl
  | cons q qs ih =>
    simp only [List.foldl_cons]
    have : processPair K rs st (sqdist p q) = st := by
      unfold processPair
      rw [h q (by simp)]
    rw [this]
    exact ih st (fun q hq => h q (by simp [hq]))

/-- The blended lane value classifies exactly like the scalar range filter
plus scan: rejected lanes carry `sqr_rpmax`, which the bin loop never counts. -/
theorem laneBin_blend (K : ℕ) (rs : ℕ → ℚ) (r2 : ℚ) :
    laneBin rs (K - 1) (if r2 < rs (K - 1) ∧ rs 0 ≤ r2 then r2 else rs (K - 1))
      = pairBin K rs r2 := by
  by_cases hin : r2 < rs (K - 1) ∧ rs 0 ≤ r2
  · rw [if_pos hin]
    unfold laneBin pairBin
    rw [if_pos hin.1, if_neg (by push_neg; exact hin)]
  · rw [if_neg hin]
    unfold laneBin pairBin
    rw [if_neg (lt_irrefl _), if_pos ?_]
    rcases not_and_or.mp hin with h | h
    · exact Or.inl (not_lt.mp h)
    · exact Or.inr (not_le.mp h)

theorem pairBin_ne_outside {K : ℕ} {rs : ℕ → ℚ} {r2 : ℚ} {j : ℕ}
    (hj : ¬(1 ≤ j ∧ j ≤ K - 1)) : pairBin K rs r2 ≠ some j := by
  intro h
  unfold pairBin at h
  split at h
  · cases h
  · have := scanBin_isSome_bounds h
    omega

/-- Filtering the blended lane values by their final lane bin (for an output
bin `j ≥ 1`) picks out exactly the squared distances of the pairs the scalar
path classifies into bin `j`. -/
theorem blend_filter_eq (K : ℕ) (rs : ℕ → ℚ) (p : Point) (j : ℕ) (hj1 : 1 ≤ j)
    (l : List Point) :
    ((l.map fun q => if sqdist p q < rs (K - 1) ∧ rs 0 ≤ sqdist p q then sqdist p q
        else rs (K - 1)).filter fun r2 =>
          decide ((match laneBin rs (K - 1) r2 with
            | some i => i
            | none => 0) = j))
      = (l.filter fun q => decide (pairBin K rs (sqdist p q) = some j)).map
          fun q => sqdist p q := by
  induction l with
  | nil => rfl
  | cons q l ihl =>
    simp only [List.map_cons, List.filter_cons]
    have hpt : (decide ((match laneBin rs (K - 1)
        (if sqdist p q < rs (K - 1) ∧ rs 0 ≤ sqdist p q then sqdist p q
          else rs (K - 1)) with
        | some i => i
        | none => 0) = j))
        = decide (pairBin K rs (sqdist p q) = some j) := by
      rw [laneBin_blend]
      rcases hp : pairBin K rs (sqdist p q) with _ | i
      · have h0 : (0 : ℕ) ≠ j := by omega
        simp [h0]
      · apply decide_eq_decide.mpr
        constructor
        · intro h
          exact congrArg some h
        · intro h
          exact Option.some.inj h
    rw [hpt]
    by_cases hq : pairBin K rs (sqdist p q) = some j
    · have hqd : decide (pairBin K rs (sqdist p q) = some j) = true := by simpa using hq
      have hin : sqdist p q < rs (K - 1) ∧ rs 0 ≤ sqdist p q := by
        by_contra hc
        rw [pairBin_out K rs _ (by
          rcases not_and_or.mp hc with h | h
          · exact Or.inl (not_lt.mp h)
          · exact Or.inr (not_le.mp h))] at hq
        cases hq
      simp only [hqd, if_true, List.map_cons, ihl, if_pos hin]
    · have hqd : decide (pairBin K rs (sqdist p q) = some j) = false := by simpa using hq
      simp only [hqd, Bool.false_eq_true, if_false]
      exact ihl

/-- One AVX block over a list of lanes is observationally the scalar fold
of the per-pair body over the same lanes: identical histogram everywhere,
identical distance accumulators in every output bin `j ≥ 1` (bin 0 of the
distance accumulator receives the blended `sqr_rpmax` of rejected lanes in
the AVX path only, and is never reported). -/
theorem avxBlock_eq (K : ℕ) (rs : ℕ → ℚ) (p : Point) (qs : List Point) (st : KState)
    (hmono : ∀ i j, i ≤ j → j ≤ K - 1 → rs i ≤ rs j)
    (hb : histBounded st) :
    (∀ j, (avxBlock K rs p st qs).hist j
        = (qs.foldl (fun s q => processPair K rs s (sqdist p q)) st).hist j) ∧
    (∀ j, 1 ≤ j → (avxBlock K rs p st qs).dist j
        = (qs.foldl (fun s q => processPair K rs s (sqdist p q)) st).dist j) := by
  by_cases h1 : ((qs.map fun q => sqdist p q).map fun r2 =>
      decide (r2 < rs (K - 1))).any id = false
  · have hout : ∀ q ∈ qs, pairBin K rs (sqdist p q) = none := by
      intro q hq
      rw [List.map_map] at h1
      have := (any_map_id_eq_false _ qs).mp h1 q hq
      simp only [Function.comp_apply, decide_eq_false_iff_not, not_lt] at this
      exact pairBin_out K rs _ (Or.inl this)
    have hA : avxBlock K rs p st qs = st := by
      simp only [avxBlock]
      rw [if_pos h1]
    rw [hA, foldPairs_out K rs p qs st hout]
    exact ⟨fun j => rfl, fun j _ => rfl⟩
  · by_cases h2 : (laneAnd ((qs.map fun q => sqdist p q).map fun r2 =>
        decide (r2 < rs (K - 1)))
        ((qs.map fun q => sqdist p q).map fun r2 => decide (rs 0 ≤ r2))).any id = false
    · have hout : ∀ q ∈ qs, pairBin K rs (sqdist p q) = none := by
        intro q hq
        rw [laneAnd_map, List.map_map] at h2
        have := (any_map_id_eq_false _ qs).mp h2 q hq
        simp only [Function.comp_apply, Bool.and_eq_false_iff,
          decide_eq_false_iff_not, not_lt, not_le] at this
        rcases this with h | h
        · exact pairBin_out K rs _ (Or.inl h)
        · exact pairBin_out K rs _ (Or.inr h)
      have hA : avxBlock K rs p st qs = st := by
        simp only [avxBlock]
        rw [if_neg h1, if_pos h2]
      rw [hA, foldPairs_out K rs p qs st hout]
      exact ⟨fun j => rfl, fun j _ => rfl⟩
    · -- main case: some lane is in range
      have hr2sB : List.zipWith (fun m r2 => if m then r2 else rs (K - 1))
          (laneAnd ((qs.map fun q => sqdist p q).map fun r2 => decide (r2 < rs (K - 1)))
            ((qs.map fun q => sqdist p q).map fun r2 => decide (rs 0 ≤ r2)))
          (qs.map fun q => sqdist p q)
          = qs.map fun q =>
              if sqdist p q < rs (K - 1) ∧ rs 0 ≤ sqdist p q then sqdist p q
              else rs (K - 1) := by
        rw [laneAnd_map, zipWith_map_left_same, List.map_map]
        apply List.map_congr_left
        intro q _
        simp only [Function.comp_apply, Bool.and_eq_true, decide_eq_true_eq]
      have hA : avxBlock K rs p st qs = ⟨
          (avxBinLoop rs (qs.map fun q =>
              if sqdist p q < rs (K - 1) ∧ rs 0 ≤ sqdist p q then sqdist p q
              else rs (K - 1)) (K - 1)
            ((qs.map fun q =>
              if sqdist p q < rs (K - 1) ∧ rs 0 ≤ sqdist p q then sqdist p q
              else rs (K - 1)).map fun r2 => decide (r2 < rs (K - 1)))
            st.hist
            ((qs.map fun q =>
              if sqdist p q < rs (K - 1) ∧ rs 0 ≤ sqdist p q then sqdist p q
              else rs (K - 1)).map fun _ => 0)).1,
          distAddLanes st.dist
            (avxBinLoop rs (qs.map fun q =>
              if sqdist p q < rs (K - 1) ∧ rs 0 ≤ sqdist p q then sqdist p q
              else rs (K - 1)) (K - 1)
            ((qs.map fun q =>
              if sqdist p q < rs (K - 1) ∧ rs 0 ≤ sqdist p q then sqdist p q
              else rs (K - 1)).map fun r2 => decide (r2 < rs (K - 1)))
            st.hist
            ((qs.map fun q =>
              if sqdist p q < rs (K - 1) ∧ rs 0 ≤ sqdist p q then sqdist p q
              else rs (K - 1)).map fun _ => 0)).2
            (qs.map fun q =>
              if sqdist p q < rs (K - 1) ∧ rs 0 ≤ sqdist p q then sqdist p q
              else rs (K - 1))⟩ := by
        simp only [avxBlock]
        rw [if_neg h1, if_neg h2, hr2sB]
      obtain ⟨ihh, ihr⟩ := avxBinLoop_spec rs
        (qs.map fun q =>
          if sqdist p q < rs (K - 1) ∧ rs 0 ≤ sqdist p q then sqdist p q
          else rs (K - 1)) (K - 1) st.hist
        ((qs.map fun q =>
          if sqdist p q < rs (K - 1) ∧ rs 0 ≤ sqdist p q then sqdist p q
          else rs (K - 1)).map fun _ => 0)
        hmono hb (by simp)
      have hcntq : ∀ j, ((qs.map fun q =>
          if sqdist p q < rs (K - 1) ∧ rs 0 ≤ sqdist p q then sqdist p q
          else rs (K - 1)).countP fun r2 => decide (laneBin rs (K - 1) r2 = some j))
          = qs.countP fun q => decide (pairBin K rs (sqdist p q) = some j) := by
        intro j
        rw [List.countP_map]
        apply List.countP_congr
        intro q _
        simp only [Function.comp_apply, decide_eq_true_eq]
        rw [laneBin_blend]
      constructor
      · intro j
        rw [hA]
        show (avxBinLoop _ _ _ _ _ _).1 j = _
        rw [ihh j, foldPairs_hist K rs p qs st j (hb j), hcntq j]
        by_cases hj : 1 ≤ j ∧ j ≤ K - 1
        · rw [if_pos hj]
        · rw [if_neg hj]
          have hz : (qs.countP fun q => decide (pairBin K rs (sqdist p q) = some j)) = 0 := by
            apply List.countP_eq_zero.mpr
            intro q _
            simpa using pairBin_ne_outside hj
          rw [hz, Nat.add_zero, Nat.mod_eq_of_lt (hb j)]
      · intro j hj1
        rw [hA]
        show distAddLanes st.dist _ _ j = _
        rw [ihr, zipWith_map_right_same, distAddLanes_spec, zip_map_left_same,
          List.filter_map, List.map_map, foldPairs_dist]
        simp only [Function.comp_def]
        rw [List.map_id']
        congr 1
        exact congrArg _ (blend_filter_eq K rs p j hj1 qs)

/-! ### Composing blocks into the full cell-pair kernels -/

theorem foldl_chunksOf {α β : Type} (n : ℕ) (l : List α) (f : β → α → β) (b : β) :
    (chunksOf n l).foldl (fun acc blk => blk.foldl f acc) b = l.foldl f b := by
  conv_rhs => rw [← chunksOf_flatten n l]
  rw [List.foldl_flatten]

theorem scalarCellPair_eq (K : ℕ) (rs : ℕ → ℚ) (ps qs : List Point) :
    ∀ st, scalarCellPair K rs st ps qs
      = ps.foldl (fun st1 p1 =>
          qs.foldl (fun s q => processPair K rs s (sqdist p1 q)) st1) st := by
  unfold scalarCellPair
  induction ps with
  | nil => intro st; rfl
  | cons p ps ih =>
    intro st
    simp only [List.foldl_cons]
    rw [foldl_chunksOf, ih]

/-- Observational agreement between two kernel states: identical histograms
everywhere, identical distance accumulators in the output bins `j ≥ 1`. -/
def KRel (s s' : KState) : Prop :=
  (∀ j, s.hist j = s'.hist j) ∧ (∀ j, 1 ≤ j → s.dist j = s'.dist j)

theorem KRel_rfl (s : KState) : KRel s s := ⟨fun _ => rfl, fun _ _ => rfl⟩

theorem foldPairs_bounded (K : ℕ) (rs : ℕ → ℚ) (p : Point) (qs : List Point)
    (s : KState) (h : histBounded s) :
    histBounded (qs.foldl (fun s q => processPair K rs s (sqdist p q)) s) :=
  foldl_preserve_bounded _ (fun s q hs => processPair_bounded K rs s _ hs) qs s h

theorem KRel_foldPairs (K : ℕ) (rs : ℕ → ℚ) (p : Point) (qs : List Point)
    {s s' : KState} (h : KRel s s') (hbs : histBounded s) (hbs' : histBounded s') :
    KRel (qs.foldl (fun s q => processPair K rs s (sqdist p q)) s)
      (qs.foldl (fun s q => processPair K rs s (sqdist p q)) s') := by
  constructor
  · intro j
    rw [foldPairs_hist K rs p qs s j (hbs j), foldPairs_hist K rs p qs s' j (hbs' j),
      h.1 j]
  · intro j hj
    rw [foldPairs_dist K rs p qs s j, foldPairs_dist K rs p qs s' j, h.2 j hj]

theorem avxBlock_bounded (K : ℕ) (rs : ℕ → ℚ) (p : Point) (blk : List Point)
    (s : KState) (hmono : ∀ i j, i ≤ j → j ≤ K - 1 → rs i ≤ rs j)
    (hbs : histBounded s) : histBounded (avxBlock K rs p s blk) := by
  intro j
  rw [(avxBlock_eq K rs p blk s hmono hbs).1 j]
  exact foldPairs_bounded K rs p blk s hbs j

theorem KRel_avxBlock (K : ℕ) (rs : ℕ → ℚ) (p : Point) (blk : List Point)
    {s s' : KState} (hmono : ∀ i j, i ≤ j → j ≤ K - 1 → rs i ≤ rs j)
    (h : KRel s s') (hbs : histBounded s) (hbs' : histBounded s') :
    KRel (avxBlock K rs p s blk)
      (blk.foldl (fun s q => processPair K rs s (sqdist p q)) s') := by
  obtain ⟨eh, ed⟩ := avxBlock_eq K rs p blk s hmono hbs
  obtain ⟨fh, fd⟩ := KRel_foldPairs K rs p blk h hbs hbs'
  exact ⟨fun j => (eh j).trans (fh j), fun j hj => (ed j hj).trans (fd j hj)⟩

theorem KRel_chunks (K : ℕ) (rs : ℕ → ℚ) (p : Point) (blks : List (List Point))
    (hmono : ∀ i j, i ≤ j → j ≤ K - 1 → rs i ≤ rs j) :
    ∀ {s s' : KState}, KRel s s' → histBounded s → histBounded s' →
      KRel (blks.foldl (fun acc blk => avxBlock K rs p acc blk) s)
        (blks.foldl (fun acc blk =>
          blk.foldl (fun s q => processPair K rs s (sqdist p q)) acc) s') := by
  induction blks with
  | nil => intro s s' h _ _; exact h
  | cons blk blks ih =>
    intro s s' h hbs hbs'
    simp only [List.foldl_cons]
    exact ih (KRel_avxBlock K rs p blk hmono h hbs hbs')
      (avxBlock_bounded K rs p blk s hmono hbs)
      (foldPairs_bounded K rs p blk s' hbs')

theorem KRel_perPoint (nvec K : ℕ) (rs : ℕ → ℚ) (p : Point) (qs : List Point)
    {s s' : KState} (hmono : ∀ i j, i ≤ j → j ≤ K - 1 → rs i ≤ rs j)
    (h : KRel s s') (hbs : histBounded s) (hbs' : histBounded s') :
    KRel ((qs.drop (nvec * (qs.length / nvec))).foldl
        (fun s q => processPair K rs s (sqdist p q))
        ((chunksOf nvec (qs.take (nvec * (qs.length / nvec)))).foldl
          (fun acc blk => avxBlock K rs p acc blk) s))
      (qs.foldl (fun s q => processPair K rs s (sqdist p q)) s') := by
  have hsplit : qs.foldl (fun s q => processPair K rs s (sqdist p q)) s'
      = (qs.drop (nvec * (qs.length / nvec))).foldl
          (fun s q => processPair K rs s (sqdist p q))
          ((qs.take (nvec * (qs.length / nvec))).foldl
            (fun s q => processPair K rs s (sqdist p q)) s') := by
    rw [← List.foldl_append, List.take_append_drop]
  rw [hsplit, ← foldl_chunksOf nvec (qs.take (nvec * (qs.length / nvec)))]
  have hrel := KRel_chunks K rs p (chunksOf nvec (qs.take (nvec * (qs.length / nvec))))
    hmono h hbs hbs'
  apply KRel_foldPairs K rs p _ hrel
  · exact foldl_preserve_bounded _
      (fun s blk hs => avxBlock_bounded K rs p blk s hmono hs) _ s hbs
  · exact foldl_preserve_bounded _
      (fun s blk hs => foldPairs_bounded K rs p blk s hs) _ s' hbs'

theorem avxCellPair_rel (nvec K : ℕ) (rs : ℕ → ℚ) (ps qs : List Point)
    (hmono : ∀ i j, i ≤ j → j ≤ K - 1 → rs i ≤ rs j) :
    ∀ {s s' : KState}, KRel s s' → histBounded s → histBounded s' →
      KRel (avxCellPair nvec K rs s ps qs)
        (ps.foldl (fun st1 p1 =>
          qs.foldl (fun s q => processPair K rs s (sqdist p1 q)) st1) s') := by
  unfold avxCellPair
  induction ps with
  | nil => intro s s' h _ _; exact h
  | cons p ps ih =>
    intro s s' h hbs hbs'
    simp only [List.foldl_cons]
    have hstep := KRel_perPoint nvec K rs p qs hmono h hbs hbs'
    apply ih hstep
    · apply foldPairs_bounded
      exact foldl_preserve_bounded _
        (fun s blk hs => avxBlock_bounded K rs p blk s hmono hs) _ s hbs
    · exact foldPairs_bounded K rs p qs s' hbs'

/-- C3: for ANY two cell arrays and any (monotone, nonnegative) bin-edge
table, the AVX pair kernel and the scalar pair kernel produce identical
histogram counts in every bin, and identical distance accumulations in every
output bin `j ∈ [1, K-1]` (in the exact-arithmetic embedding the per-bin
collections of summed distances coincide as multisets, so their real sums
are equal — in particular within the spec's `K·ε·max_r` tolerance). -/
theorem claim_C3_simd_scalar_equiv (nvec K : ℕ) (rupp : ℕ → ℚ) (ps qs : List Point)
    (st : KState)
    (hnn : 0 ≤ rupp 0)
    (hmono : ∀ j, j ≤ K - 1 → ∀ i, i < j → rupp i < rupp j)
    (hb : histBounded st) :
    (∀ j, (avxCellPair nvec K (ruppSqr rupp) st ps qs).hist j
        = (scalarCellPair K (ruppSqr rupp) st ps qs).hist j) ∧
    (∀ j, 1 ≤ j → (avxCellPair nvec K (ruppSqr rupp) st ps qs).dist j
        = (scalarCellPair K (ruppSqr rupp) st ps qs).dist j) := by
  have hmonos := ruppSqr_mono hnn hmono
  have hrel := avxCellPair_rel nvec K (ruppSqr rupp) ps qs hmonos (KRel_rfl st) hb hb
  rw [scalarCellPair_eq K (ruppSqr rupp) ps qs st]
  exact hrel

theorem claim_C3_witness :
    (avxCellPair 4 2 (ruppSqr fun i => (i : ℚ)) KState.init
        [⟨0, 0, 0⟩] [⟨0, 0, 0⟩, ⟨2, 0, 0⟩]).hist 1
      = (scalarCellPair 2 (ruppSqr fun i => (i : ℚ)) KState.init
        [⟨0, 0, 0⟩] [⟨0, 0, 0⟩, ⟨2, 0, 0⟩]).hist 1 ∧
    (avxCellPair 4 2 (ruppSqr fun i => (i : ℚ)) KState.init
        [⟨0, 0, 0⟩] [⟨0, 0, 0⟩, ⟨2, 0, 0⟩]).dist 1
      = (scalarCellPair 2 (ruppSqr fun i => (i : ℚ)) KState.init
        [⟨0, 0, 0⟩] [⟨0, 0, 0⟩, ⟨2, 0, 0⟩]).dist 1 := by
  have h := claim_C3_simd_scalar_equiv 4 2 (fun i => (i : ℚ))
    [⟨0, 0, 0⟩] [⟨0, 0, 0⟩, ⟨2, 0, 0⟩] KState.init (le_refl 0)
    (fun j _ i hij => Nat.cast_lt.mpr hij) (fun _ => UINT_MOD_pos)
  exact ⟨h.1 1, h.2 1 le_rfl⟩

/-! ### The lattice (gridlink) and the cell driver -/

/-- Bounding box passed to `countpairs_nopbc` (xmin..zmax, lines 30-32). -/
structure BBox where
  xmin : ℚ
  xmax : ℚ
  ymin : ℚ
  ymax : ℚ
  zmin : ℚ
  zmax : ℚ
deriving DecidableEq, Repr

/-- Modelled from the spec: `gridlink_nopbc` (declared in gridlink.h, its
source is not part of this tree) chooses the lattice size per axis as
`nx = max(1, floor((xmax-xmin) · binRefineFactor / rmax))` (spec §4.1). -/
def nmeshAxis (lo hi : ℚ) (bf : ℕ) (rmax : ℚ) : ℕ :=
  max 1 (⌊(hi - lo) * bf / rmax⌋).toNat

/-- Modelled from the spec: `gridlink_nopbc` bins a coordinate by
`clamp(floor((v - lo)/w), 0, n-1)` with cell width `w = (hi-lo)/n`
(spec §4.1).  `Int.toNat` realises the lower clamp, `min (n-1)` the upper. -/
def cellAxis (lo hi : ℚ) (n : ℕ) (v : ℚ) : ℕ :=
  min (n - 1) (⌊(v - lo) / ((hi - lo) / n)⌋).toNat

def nmX (b : BBox) (bf : ℕ) (rmax : ℚ) : ℕ := nmeshAxis b.xmin b.xmax bf rmax

def nmY (b : BBox) (bf : ℕ) (rmax : ℚ) : ℕ := nmeshAxis b.ymin b.ymax bf rmax

def nmZ (b : BBox) (bf : ℕ) (rmax : ℚ) : ℕ := nmeshAxis b.zmin b.zmax bf rmax

def cellIx (b : BBox) (bf : ℕ) (rmax : ℚ) (p : Point) : ℕ :=
  cellAxis b.xmin b.xmax (nmX b bf rmax) p.x

def cellIy (b : BBox) (bf : ℕ) (rmax : ℚ) (p : Point) : ℕ :=
  cellAxis b.ymin b.ymax (nmY b bf rmax) p.y

def cellIz (b : BBox) (bf : ℕ) (rmax : ℚ) (p : Point) : ℕ :=
  cellAxis b.zmin b.zmax (nmZ b bf rmax) p.z

/-- Row-major cell index `ix·ny·nz + iy·nz + iz` of the cell owning a point
(the encoding used at line 167 for `index2`). -/
def cellIndex (b : BBox) (bf : ℕ) (rmax : ℚ) (p : Point) : ℕ :=
  cellIx b bf rmax p * (nmY b bf rmax * nmZ b bf rmax)
    + cellIy b bf rmax p * nmZ b bf rmax + cellIz b bf rmax p

/-- Modelled from the spec: the cell arrays produced by `gridlink_nopbc` —
every point appears in exactly one cell, the cell determined by its clamped
lattice coordinates; order within a cell is unspecified (spec §4.1), taken
here as input order. -/
def cellList (pts : List Point) (b : BBox) (bf : ℕ) (rmax : ℚ) (c : ℕ) : List Point :=
  pts.filter fun p => decide (cellIndex b bf rmax p = c)

/-- Driver decoding `iz = icell % nmesh_z` (line 142). -/
def decodeIz (nz c : ℕ) : ℕ := c % nz

/-- Driver decoding `ix = icell / (nmesh_z * nmesh_y)` (line 143). -/
def decodeIx (ny nz c : ℕ) : ℕ := c / (nz * ny)

/-- Driver decoding `iy = (icell - iz - ix*nmesh_z*nmesh_y)/nmesh_z` (line 144). -/
def decodeIy (ny nz c : ℕ) : ℕ :=
  (c - decodeIz nz c - decodeIx ny nz c * (nz * ny)) / nz

/-- The neighbor offsets `-bin_refine_factor .. bin_refine_factor` of the
three nested loops (lines 146, 153, 160). -/
def offsets (bf : ℕ) : List ℤ := (List.range (2 * bf + 1)).map fun t : ℕ => (t : ℤ) - bf

/-- The three nested neighbor loops of one outer cell (lines 146-345), with
the out-of-lattice `continue`s and the `index2` encoding, invoking the
scalar pair kernel on (outer cell, neighbor cell). -/
def neighborFold (K : ℕ) (rs : ℕ → ℚ) (bf nx ny nz : ℕ) (lat2 : ℕ → List Point)
    (ps : List Point) (ix iy iz : ℕ) (st : KState) : KState :=
  (offsets bf).foldl (fun st1 dx =>
    if (ix : ℤ) + dx < 0 ∨ (nx : ℤ) ≤ (ix : ℤ) + dx then st1 else
    (offsets bf).foldl (fun st2 dy =>
      if (iy : ℤ) + dy < 0 ∨ (ny : ℤ) ≤ (iy : ℤ) + dy then st2 else
      (offsets bf).foldl (fun st3 dz =>
        if (iz : ℤ) + dz < 0 ∨ (nz : ℤ) ≤ (iz : ℤ) + dz then st3 else
        scalarCellPair K rs st3 ps
          (lat2 (((ix : ℤ) + dx).toNat * (ny * nz) + ((iy : ℤ) + dy).toNat * nz
            + ((iz : ℤ) + dz).toNat))) st2) st1) st

/-- The outer `icell` loop (lines 140-347) over a given list of cells, with
the driver's index reconstruction. -/
def engineCells (K : ℕ) (rs : ℕ → ℚ) (bf nx ny nz : ℕ)
    (lat1 lat2 : ℕ → List Point) (cells : List ℕ) (st : KState) : KState :=
  cells.foldl (fun st c =>
    neighborFold K rs bf nx ny nz lat2 (lat1 c)
      (decodeIx ny nz c) (decodeIy ny nz c) (decodeIz nz c) st) st

/-- `bin_refine_factor`: 2 in the serial build (both arms of the autocorr
test, lines 40-45), 1 when OpenMP runs more than one thread (lines 46-59). -/
def binRefineFactor (numthreads : ℕ) : ℕ := if 1 < numthreads then 1 else 2

/-- The serial `countpairs_nopbc` engine: build the lattice(s) (aliased
under autocorrelation, lines 62-75), zero the histogram, and run the cell
loop over all `totncells` cells. -/
def countpairsNopbc (D1 D2 : List Point) (b : BBox) (autocorr : Bool) (rpmax : ℚ)
    (numthreads K : ℕ) (rupp : ℕ → ℚ) : KState :=
  let bf := binRefineFactor numthreads
  let nx := nmX b bf rpmax
  let ny := nmY b bf rpmax
  let nz := nmZ b bf rpmax
  let lat1 := cellList D1 b bf rpmax
  let lat2 := if autocorr then lat1 else cellList D2 b bf rpmax
  engineCells K (ruppSqr rupp) bf nx ny nz lat1 lat2
    (List.range (nx * ny * nz)) KState.init

/-- The OpenMP variant (lines 123-370): each thread owns a zeroed histogram,
processes the outer cells its schedule assigned to it (`assign`), and the
main thread reduces the per-thread histograms with `unsigned int` addition
(lines 362-370). -/
def countpairsNopbcOMP (D1 D2 : List Point) (b : BBox) (autocorr : Bool)
    (rpmax : ℚ) (numthreads K : ℕ) (rupp : ℕ → ℚ) (assign : ℕ → ℕ) : ℕ → ℕ :=
  let bf := binRefineFactor numthreads
  let nx := nmX b bf rpmax
  let ny := nmY b bf rpmax
  let nz := nmZ b bf rpmax
  let lat1 := cellList D1 b bf rpmax
  let lat2 := if autocorr then lat1 else cellList D2 b bf rpmax
  fun j =>
    ((List.range numthreads).map fun t =>
      (engineCells K (ruppSqr rupp) bf nx ny nz lat1 lat2
        ((List.range (nx * ny * nz)).filter fun c => decide (assign c = t))
        KState.init).hist j).foldl (fun acc h => (acc + h) % UINT_MOD) 0

/-- The output loop (lines 393-403): `(*paircounts)[i] = npairs[i]` for
`i = 1 .. nrpbin-1`; slot 0 is never written. -/
def writeOutput (K : ℕ) (npairs : ℕ → ℕ) (paircounts : ℕ → ℤ) : ℕ → ℤ :=
  (List.range' 1 (K - 1)).foldl
    (fun pc i => fun j => if j = i then (npairs i : ℤ) else pc j) paircounts

/-- Two points' cells differ by at most `bf` in every axis — exactly the
neighbor-cell pairs the driver enumerates. -/
def inNbhd (b : BBox) (bf : ℕ) (rmax : ℚ) (p q : Point) : Prop :=
  ((cellIx b bf rmax q : ℤ) - cellIx b bf rmax p).natAbs ≤ bf ∧
  ((cellIy b bf rmax q : ℤ) - cellIy b bf rmax p).natAbs ≤ bf ∧
  ((cellIz b bf rmax q : ℤ) - cellIz b bf rmax p).natAbs ≤ bf

instance (b : BBox) (bf : ℕ) (rmax : ℚ) (p q : Point) :
    Decidable (inNbhd b bf rmax p q) := by
  unfold inNbhd
  infer_instance

/-- Reference count: ordered pairs (p from D1, q from D2) that lie in
neighboring cells and whose squared distance classifies into bin `j`. -/
def pairCountSpec (K : ℕ) (rupp : ℕ → ℚ) (b : BBox) (bf : ℕ) (rmax : ℚ)
    (D1 D2 : List Point) (j : ℕ) : ℕ :=
  (D1.map fun p => D2.countP fun q =>
    decide (inNbhd b bf rmax p q ∧ pairBin K (ruppSqr rupp) (sqdist p q) = some j)).sum


/-! ### Row-major encode/decode arithmetic -/

theorem decode_encode (nx ny nz a bq d : ℕ) (ha : a < nx) (hb : bq < ny) (hd : d < nz) :
    decodeIx ny nz (a * (ny * nz) + bq * nz + d) = a ∧
    decodeIy ny nz (a * (ny * nz) + bq * nz + d) = bq ∧
    decodeIz nz (a * (ny * nz) + bq * nz + d) = d := by
  have hnz : 0 < nz := by omega
  have hny : 0 < ny := by omega
  have hrlt : bq * nz + d < nz * ny := by
    have h1 : bq * nz + d < (bq + 1) * nz := by
      have := Nat.mul_le_mul_right nz (le_refl (bq + 1))
      calc bq * nz + d < bq * nz + nz := by omega
      _ = (bq + 1) * nz := by ring
    have h2 : (bq + 1) * nz ≤ ny * nz := Nat.mul_le_mul_right nz (by omega)
    calc bq * nz + d < (bq + 1) * nz := h1
    _ ≤ ny * nz := h2
    _ = nz * ny := by ring
  have hz : decodeIz nz (a * (ny * nz) + bq * nz + d) = d := by
    unfold decodeIz
    have hc : a * (ny * nz) + bq * nz + d = nz * (a * ny + bq) + d := by ring
    rw [hc, Nat.mul_add_mod, Nat.mod_eq_of_lt hd]
  have hx : decodeIx ny nz (a * (ny * nz) + bq * nz + d) = a := by
    unfold decodeIx
    have hc : a * (ny * nz) + bq * nz + d = (nz * ny) * a + (bq * nz + d) := by ring
    rw [hc, Nat.mul_add_div (by omega), Nat.div_eq_of_lt hrlt, Nat.add_zero]
  refine ⟨hx, ?_, hz⟩
  unfold decodeIy
  rw [hx, hz]
  have hc : a * (ny * nz) + bq * nz + d - d - a * (nz * ny) = bq * nz := by
    have h1 : a * (nz * ny) = a * (ny * nz) := by ring
    omega
  rw [hc, Nat.mul_div_cancel bq hnz]

theorem nmeshAxis_pos (lo hi : ℚ) (bf : ℕ) (rmax : ℚ) : 1 ≤ nmeshAxis lo hi bf rmax := by
  unfold nmeshAxis
  omega

theorem cellAxis_lt (lo hi : ℚ) (n : ℕ) (v : ℚ) (hn : 1 ≤ n) :
    cellAxis lo hi n v < n := by
  unfold cellAxis
  omega

/-! ### List summation utilities -/

theorem sum_map_add {α : Type} (l : List α) (f g : α → ℕ) :
    (l.map fun a => f a + g a).sum = (l.map f).sum + (l.map g).sum := by
  induction l with
  | nil => rfl
  | cons a l ih => simp [ih]; omega

theorem sum_map_swap {α β : Type} (l1 : List α) (l2 : List β) (f : α → β → ℕ) :
    (l1.map fun a => (l2.map (f a)).sum).sum
      = (l2.map fun b' => (l1.map fun a => f a b').sum).sum := by
  induction l1 with
  | nil => simp
  | cons a l1 ih =>
    simp only [List.map_cons, List.sum_cons, ih]
    rw [← sum_map_add]

theorem sum_map_zero {α : Type} (l : List α) : (l.map fun _ => (0 : ℕ)).sum = 0 := by
  simp

theorem sum_map_ite_swap {α β : Type} (l1 : List α) (l2 : List β)
    (P : α → Prop) [DecidablePred P] (f : α → β → ℕ) :
    (l1.map fun a => if P a then 0 else (l2.map (f a)).sum).sum
      = (l2.map fun b' => (l1.map fun a => if P a then 0 else f a b').sum).sum := by
  have h : ∀ a ∈ l1, (if P a then 0 else (l2.map (f a)).sum)
      = (l2.map fun b' => if P a then 0 else f a b').sum := by
    intro a _
    by_cases hp : P a
    · rw [if_pos hp]
      have hmz : (l2.map fun b' => if P a then 0 else f a b') = l2.map fun _ => 0 :=
        List.map_congr_left (fun b' _ => if_pos hp)
      rw [hmz, sum_map_zero]
    · rw [if_neg hp]
      have hmz : (l2.map fun b' => if P a then 0 else f a b') = l2.map (f a) :=
        List.map_congr_left (fun b' _ => if_neg hp)
      rw [hmz]
  rw [List.map_congr_left h, sum_map_swap]

theorem sum_map_filter {α : Type} (l : List α) (P : α → Bool) (F : α → ℕ) :
    ((l.filter P).map F).sum = (l.map fun a => if P a then F a else 0).sum := by
  induction l with
  | nil => rfl
  | cons a l ih =>
    simp only [List.filter_cons, List.map_cons, List.sum_cons]
    by_cases hp : P a
    · rw [if_pos hp, if_pos hp]
      simp [ih]
    · rw [if_neg hp, if_neg hp]
      simp [ih]

theorem sum_range_single (n c0 : ℕ) (F : ℕ → ℕ) (h : c0 < n) :
    ((List.range n).map fun c => if c0 = c then F c else 0).sum = F c0 := by
  induction n with
  | zero => omega
  | succ n ih =>
    rw [List.range_succ]
    simp only [List.map_append, List.sum_append, List.map_cons, List.map_nil,
      List.sum_cons, List.sum_nil]
    by_cases hc : c0 = n
    · subst hc
      rw [if_pos rfl]
      have hz : ((List.range c0).map fun c => if c0 = c then F c else 0)
          = (List.range c0).map fun _ => 0 :=
        List.map_congr_left (fun c hc => if_neg (by simp at hc; omega))
      rw [hz, sum_map_zero]
      omega
    · rw [if_neg hc, ih (by omega)]
      omega

theorem countP_eq_sum_map {α : Type} (l : List α) (p : α → Bool) :
    l.countP p = (l.map fun a => if p a then 1 else 0).sum := by
  induction l with
  | nil => rfl
  | cons a l ih =>
    rw [List.countP_cons]
    simp only [List.map_cons, List.sum_cons]
    rw [ih]
    omega

theorem sum_ite_single (c t : ℤ) (A : ℕ) :
    ∀ (l : List ℤ), l.Nodup →
      ((l.map fun d => if t = c + d then A else 0).sum = if t - c ∈ l then A else 0) := by
  intro l
  induction l with
  | nil => intro _; simp
  | cons d l ih =>
    intro hnd
    rcases List.nodup_cons.mp hnd with ⟨hd, hnd'⟩
    simp only [List.map_cons, List.sum_cons, List.mem_cons]
    by_cases ht : t = c + d
    · rw [if_pos ht]
      have htc : t - c = d := by omega
      have hz : (l.map fun e => if t = c + e then A else 0) = l.map fun _ => 0 := by
        apply List.map_congr_left
        intro e he
        rw [if_neg]
        intro hte
        apply hd
        have hed : e = d := by omega
        rwa [← hed]
      rw [hz, sum_map_zero, if_pos (Or.inl htc)]
      omega
    · rw [if_neg ht]
      rw [ih hnd']
      have hcond : (t - c = d ∨ t - c ∈ l) ↔ t - c ∈ l := by
        constructor
        · rintro (h | h)
          · exact absurd (by omega : t = c + d) ht
          · exact h
        · exact Or.inr
      by_cases hm : t - c ∈ l
      · rw [if_pos hm, if_pos (hcond.mpr hm)]
        omega
      · rw [if_neg hm, if_neg (fun h => hm (hcond.mp h))]

theorem offsets_nodup (bf : ℕ) : (offsets bf).Nodup := by
  unfold offsets
  refine List.Nodup.map ?_ (List.nodup_range _)
  intro a b hab
  dsimp only at hab
  omega

theorem offsets_mem (bf : ℕ) (t : ℤ) : t ∈ offsets bf ↔ t.natAbs ≤ bf := by
  unfold offsets
  simp only [List.mem_map, List.mem_range]
  constructor
  · rintro ⟨a, ha, rfl⟩
    omega
  · intro h
    exact ⟨(t + bf).toNat, by omega, by omega⟩

/-- Collapsing one axis of the neighbor enumeration: the offsets that keep a
matching in-lattice cell contribute once if the target coordinate is within
`bf`, otherwise never. -/
theorem axis_sum (bf n cx qx : ℕ) (A : ℕ) (hq : qx < n) :
    ((offsets bf).map fun dx =>
      if (cx : ℤ) + dx < 0 ∨ (n : ℤ) ≤ (cx : ℤ) + dx then 0
      else if (qx : ℤ) = (cx : ℤ) + dx then A else 0).sum
      = if ((qx : ℤ) - (cx : ℤ)).natAbs ≤ bf then A else 0 := by
  have hcongr : ∀ dx ∈ offsets bf,
      (if (cx : ℤ) + dx < 0 ∨ (n : ℤ) ≤ (cx : ℤ) + dx then 0
        else if (qx : ℤ) = (cx : ℤ) + dx then A else 0)
      = if (qx : ℤ) = (cx : ℤ) + dx then A else 0 := by
    intro dx _
    by_cases heq : (qx : ℤ) = (cx : ℤ) + dx
    · rw [if_neg (show ¬ ((cx : ℤ) + dx < 0 ∨ (n : ℤ) ≤ (cx : ℤ) + dx) by omega),
        if_pos heq]
    · by_cases hv : (cx : ℤ) + dx < 0 ∨ (n : ℤ) ≤ (cx : ℤ) + dx
      · rw [if_pos hv, if_neg heq]
      · rw [if_neg hv, if_neg heq]
  rw [List.map_congr_left hcongr, sum_ite_single _ _ _ _ (offsets_nodup bf)]
  by_cases hm : ((qx : ℤ) - (cx : ℤ)) ∈ offsets bf
  · rw [if_pos hm, if_pos ((offsets_mem bf _).mp hm)]
  · rw [if_neg hm, if_neg (fun h => hm ((offsets_mem bf _).mpr h))]

/-! ### Histogram accumulation through the driver loops -/

theorem foldl_hist_mod {α : Type} (f : KState → α → KState) (g : α → ℕ → ℕ)
    (hf : ∀ s a j, histBounded s → (f s a).hist j = (s.hist j + g a j) % UINT_MOD)
    (hfb : ∀ s a, histBounded s → histBounded (f s a)) :
    ∀ (L : List α) (s : KState) (j : ℕ), histBounded s →
      (L.foldl f s).hist j = (s.hist j + (L.map fun a => g a j).sum) % UINT_MOD := by
  intro L
  induction L with
  | nil =>
    intro s j h
    simp [Nat.mod_eq_of_lt (h j)]
  | cons a L ih =>
    intro s j h
    simp only [List.foldl_cons, List.map_cons, List.sum_cons]
    rw [ih (f s a) j (hfb s a h), hf s a j h, Nat.mod_add_mod]
    congr 1
    omega

/-- Pairs from cell array `ps` against cell array `qs` landing in bin `j`. -/
def cellPairCount (K : ℕ) (rs : ℕ → ℚ) (ps qs : List Point) (j : ℕ) : ℕ :=
  (ps.map fun p => qs.countP fun q => decide (pairBin K rs (sqdist p q) = some j)).sum

theorem scalarCellPair_hist (K : ℕ) (rs : ℕ → ℚ) (ps qs : List Point)
    (s : KState) (j : ℕ) (hb : histBounded s) :
    (scalarCellPair K rs s ps qs).hist j
      = (s.hist j + cellPairCount K rs ps qs j) % UINT_MOD := by
  rw [scalarCellPair_eq]
  exact foldl_hist_mod
    (fun s1 p => qs.foldl (fun s2 q => processPair K rs s2 (sqdist p q)) s1)
    (fun p j => qs.countP fun q => decide (pairBin K rs (sqdist p q) = some j))
    (fun s1 p j h => foldPairs_hist K rs p qs s1 j (h j))
    (fun s1 p h => foldPairs_bounded K rs p qs s1 h) ps s j hb

theorem scalarCellPair_bounded (K : ℕ) (rs : ℕ → ℚ) (ps qs : List Point)
    (s : KState) (hb : histBounded s) : histBounded (scalarCellPair K rs s ps qs) := by
  rw [scalarCellPair_eq]
  exact foldl_preserve_bounded _ (fun s1 p h => foldPairs_bounded K rs p qs s1 h) ps s hb

/-- Pairs contributed by one outer cell (point list `ps` at lattice position
`(ix, iy, iz)`) across its whole clipped neighborhood. -/
def nbhdCount (K : ℕ) (rs : ℕ → ℚ) (bf nx ny nz : ℕ) (lat2 : ℕ → List Point)
    (ps : List Point) (ix iy iz : ℕ) (j : ℕ) : ℕ :=
  ((offsets bf).map fun dx =>
    if (ix : ℤ) + dx < 0 ∨ (nx : ℤ) ≤ (ix : ℤ) + dx then 0 else
    ((offsets bf).map fun dy =>
      if (iy : ℤ) + dy < 0 ∨ (ny : ℤ) ≤ (iy : ℤ) + dy then 0 else
      ((offsets bf).map fun dz =>
        if (iz : ℤ) + dz < 0 ∨ (nz : ℤ) ≤ (iz : ℤ) + dz then 0 else
        cellPairCount K rs ps
          (lat2 (((ix : ℤ) + dx).toNat * (ny * nz) + ((iy : ℤ) + dy).toNat * nz
            + ((iz : ℤ) + dz).toNat)) j).sum).sum).sum

theorem guard_hist {α : Type} (P : α → Prop) [DecidablePred P]
    (f : KState → α → KState) (g : α → ℕ → ℕ)
    (hf : ∀ s a j, histBounded s → (f s a).hist j = (s.hist j + g a j) % UINT_MOD)
    (s : KState) (a : α) (j : ℕ) (h : histBounded s) :
    (if P a then s else f s a).hist j
      = (s.hist j + (if P a then 0 else g a j)) % UINT_MOD := by
  by_cases hP : P a
  · rw [if_pos hP, if_pos hP, Nat.add_zero, Nat.mod_eq_of_lt (h j)]
  · rw [if_neg hP, if_neg hP]
    exact hf s a j h

theorem guard_bounded {α : Type} (P : α → Prop) [DecidablePred P]
    (f : KState → α → KState)
    (hfb : ∀ s a, histBounded s → histBounded (f s a))
    (s : KState) (a : α) (h : histBounded s) :
    histBounded (if P a then s else f s a) := by
  by_cases hP : P a
  · rwa [if_pos hP]
  · rw [if_neg hP]
    exact hfb s a h

theorem guarded_fold_hist {α : Type} (P : α → Prop) [DecidablePred P]
    (f : KState → α → KState) (g : α → ℕ → ℕ)
    (hf : ∀ s a j, histBounded s → (f s a).hist j = (s.hist j + g a j) % UINT_MOD)
    (hfb : ∀ s a, histBounded s → histBounded (f s a))
    (L : List α) (s : KState) (j : ℕ) (h : histBounded s) :
    (L.foldl (fun s a => if P a then s else f s a) s).hist j
      = (s.hist j + (L.map fun a => if P a then 0 else g a j).sum) % UINT_MOD :=
  foldl_hist_mod _ _ (fun s a j h => guard_hist P f g hf s a j h)
    (fun s a h => guard_bounded P f hfb s a h) L s j h

theorem guarded_fold_bounded {α : Type} (P : α → Prop) [DecidablePred P]
    (f : KState → α → KState)
    (hfb : ∀ s a, histBounded s → histBounded (f s a))
    (L : List α) (s : KState) (h : histBounded s) :
    histBounded (L.foldl (fun s a => if P a then s else f s a) s) :=
  foldl_preserve_bounded _ (fun s a h => guard_bounded P f hfb s a h) L s h

theorem neighborFold_bounded (K : ℕ) (rs : ℕ → ℚ) (bf nx ny nz : ℕ)
    (lat2 : ℕ → List Point) (ps : List Point) (ix iy iz : ℕ)
    (s : KState) (hb : histBounded s) :
    histBounded (neighborFold K rs bf nx ny nz lat2 ps ix iy iz s) := by
  unfold neighborFold
  apply guarded_fold_bounded _ _ ?_ _ _ hb
  intro s1 dx h1
  apply guarded_fold_bounded _ _ ?_ _ _ h1
  intro s2 dy h2
  apply guarded_fold_bounded _ _ ?_ _ _ h2
  intro s3 dz h3
  exact scalarCellPair_bounded _ _ _ _ _ h3

theorem neighborFold_hist (K : ℕ) (rs : ℕ → ℚ) (bf nx ny nz : ℕ)
    (lat2 : ℕ → List Point) (ps : List Point) (ix iy iz : ℕ)
    (s : KState) (j : ℕ) (hb : histBounded s) :
    (neighborFold K rs bf nx ny nz lat2 ps ix iy iz s).hist j
      = (s.hist j + nbhdCount K rs bf nx ny nz lat2 ps ix iy iz j) % UINT_MOD := by
  unfold neighborFold nbhdCount
  apply guarded_fold_hist _ _ _ ?_ ?_ _ _ _ hb
  · intro s1 dx j1 h1
    apply guarded_fold_hist _ _ _ ?_ ?_ _ _ _ h1
    · intro s2 dy j2 h2
      apply guarded_fold_hist _ _ _ ?_ ?_ _ _ _ h2
      · intro s3 dz j3 h3
        exact scalarCellPair_hist _ _ _ _ _ _ h3
      · intro s3 dz h3
        exact scalarCellPair_bounded _ _ _ _ _ h3
    · intro s2 dy h2
      apply guarded_fold_bounded _ _ ?_ _ _ h2
      intro s3 dz h3
      exact scalarCellPair_bounded _ _ _ _ _ h3
  · intro s1 dx h1
    apply guarded_fold_bounded _ _ ?_ _ _ h1
    intro s2 dy h2
    apply guarded_fold_bounded _ _ ?_ _ _ h2
    intro s3 dz h3
    exact scalarCellPair_bounded _ _ _ _ _ h3

theorem encode_inj (nx ny nz a bq d a' bq' d' : ℕ)
    (ha : a < nx) (hb : bq < ny) (hd : d < nz)
    (ha' : a' < nx) (hb' : bq' < ny) (hd' : d' < nz) :
    a * (ny * nz) + bq * nz + d = a' * (ny * nz) + bq' * nz + d'
      ↔ a = a' ∧ bq = bq' ∧ d = d' := by
  constructor
  · intro he
    have h1 := decode_encode nx ny nz a bq d ha hb hd
    have h2 := decode_encode nx ny nz a' bq' d' ha' hb' hd'
    rw [he] at h1
    exact ⟨h1.1.symm.trans h2.1, h1.2.1.symm.trans h2.2.1, h1.2.2.symm.trans h2.2.2⟩
  · rintro ⟨rfl, rfl, rfl⟩
    rfl

/-- Collapsing the full three-axis neighbor enumeration for one target cell:
a cell `(qx, qy, qz)` is hit exactly once when within `bf` of `(ix, iy, iz)`
on every axis, and never otherwise. -/
theorem tripleOffsets_eq (bf nx ny nz ix iy iz qx qy qz w : ℕ)
    (hqx : qx < nx) (hqy : qy < ny) (hqz : qz < nz) :
    ((offsets bf).map fun dx =>
      if (ix : ℤ) + dx < 0 ∨ (nx : ℤ) ≤ (ix : ℤ) + dx then 0 else
      ((offsets bf).map fun dy =>
        if (iy : ℤ) + dy < 0 ∨ (ny : ℤ) ≤ (iy : ℤ) + dy then 0 else
        ((offsets bf).map fun dz =>
          if (iz : ℤ) + dz < 0 ∨ (nz : ℤ) ≤ (iz : ℤ) + dz then 0 else
          if qx * (ny * nz) + qy * nz + qz
              = ((ix : ℤ) + dx).toNat * (ny * nz) + ((iy : ℤ) + dy).toNat * nz
                + ((iz : ℤ) + dz).toNat
          then w else 0).sum).sum).sum
    = if ((qx : ℤ) - ix).natAbs ≤ bf ∧ ((qy : ℤ) - iy).natAbs ≤ bf
        ∧ ((qz : ℤ) - iz).natAbs ≤ bf
      then w else 0 := by
  have hdx : ∀ dx ∈ offsets bf,
      (if (ix : ℤ) + dx < 0 ∨ (nx : ℤ) ≤ (ix : ℤ) + dx then 0 else
        ((offsets bf).map fun dy =>
          if (iy : ℤ) + dy < 0 ∨ (ny : ℤ) ≤ (iy : ℤ) + dy then 0 else
          ((offsets bf).map fun dz =>
            if (iz : ℤ) + dz < 0 ∨ (nz : ℤ) ≤ (iz : ℤ) + dz then 0 else
            if qx * (ny * nz) + qy * nz + qz
                = ((ix : ℤ) + dx).toNat * (ny * nz) + ((iy : ℤ) + dy).toNat * nz
                  + ((iz : ℤ) + dz).toNat
            then w else 0).sum).sum)
      = (if (ix : ℤ) + dx < 0 ∨ (nx : ℤ) ≤ (ix : ℤ) + dx then 0 else
          if (qx : ℤ) = (ix : ℤ) + dx then
            (if ((qy : ℤ) - iy).natAbs ≤ bf ∧ ((qz : ℤ) - iz).natAbs ≤ bf then w else 0)
          else 0) := by
    intro dx _
    by_cases hvx : (ix : ℤ) + dx < 0 ∨ (nx : ℤ) ≤ (ix : ℤ) + dx
    · rw [if_pos hvx, if_pos hvx]
    · rw [if_neg hvx, if_neg hvx]
      have hdy : ∀ dy ∈ offsets bf,
          (if (iy : ℤ) + dy < 0 ∨ (ny : ℤ) ≤ (iy : ℤ) + dy then 0 else
            ((offsets bf).map fun dz =>
              if (iz : ℤ) + dz < 0 ∨ (nz : ℤ) ≤ (iz : ℤ) + dz then 0 else
              if qx * (ny * nz) + qy * nz + qz
                  = ((ix : ℤ) + dx).toNat * (ny * nz) + ((iy : ℤ) + dy).toNat * nz
                    + ((iz : ℤ) + dz).toNat
              then w else 0).sum)
          = (if (iy : ℤ) + dy < 0 ∨ (ny : ℤ) ≤ (iy : ℤ) + dy then 0 else
              if (qy : ℤ) = (iy : ℤ) + dy then
                (if (qx : ℤ) = (ix : ℤ) + dx ∧ ((qz : ℤ) - iz).natAbs ≤ bf then w else 0)
              else 0) := by
        intro dy _
        by_cases hvy : (iy : ℤ) + dy < 0 ∨ (ny : ℤ) ≤ (iy : ℤ) + dy
        · rw [if_pos hvy, if_pos hvy]
        · rw [if_neg hvy, if_neg hvy]
          have hdz : ∀ dz ∈ offsets bf,
              (if (iz : ℤ) + dz < 0 ∨ (nz : ℤ) ≤ (iz : ℤ) + dz then 0 else
                if qx * (ny * nz) + qy * nz + qz
                    = ((ix : ℤ) + dx).toNat * (ny * nz) + ((iy : ℤ) + dy).toNat * nz
                      + ((iz : ℤ) + dz).toNat
                then w else 0)
              = (if (iz : ℤ) + dz < 0 ∨ (nz : ℤ) ≤ (iz : ℤ) + dz then 0 else
                  if (qz : ℤ) = (iz : ℤ) + dz then
                    (if (qx : ℤ) = (ix : ℤ) + dx ∧ (qy : ℤ) = (iy : ℤ) + dy then w else 0)
                  else 0) := by
            intro dz _
            by_cases hvz : (iz : ℤ) + dz < 0 ∨ (nz : ℤ) ≤ (iz : ℤ) + dz
            · rw [if_pos hvz, if_pos hvz]
            · rw [if_neg hvz, if_neg hvz]
              have hX : ((ix : ℤ) + dx).toNat < nx := by omega
              have hY : ((iy : ℤ) + dy).toNat < ny := by omega
              have hZ : ((iz : ℤ) + dz).toNat < nz := by omega
              have hiff := encode_inj nx ny nz qx qy qz
                (((ix : ℤ) + dx).toNat) (((iy : ℤ) + dy).toNat) (((iz : ℤ) + dz).toNat)
                hqx hqy hqz hX hY hZ
              by_cases hzq : (qz : ℤ) = (iz : ℤ) + dz
              · by_cases hxy : (qx : ℤ) = (ix : ℤ) + dx ∧ (qy : ℤ) = (iy : ℤ) + dy
                · rw [if_pos (hiff.mpr (by omega)), if_pos hzq, if_pos hxy]
                · rw [if_neg (fun he => hxy (by
                      have := hiff.mp he
                      omega)), if_pos hzq, if_neg hxy]
              · rw [if_neg (fun he => hzq (by
                    have := hiff.mp he
                    omega)), if_neg hzq]
          rw [List.map_congr_left hdz,
            axis_sum bf nz iz qz
              (if (qx : ℤ) = (ix : ℤ) + dx ∧ (qy : ℤ) = (iy : ℤ) + dy then w else 0) hqz]
          by_cases hzb : ((qz : ℤ) - iz).natAbs ≤ bf
          · rw [if_pos hzb]
            by_cases hyq : (qy : ℤ) = (iy : ℤ) + dy
            · by_cases hxq : (qx : ℤ) = (ix : ℤ) + dx
              · rw [if_pos ⟨hxq, hyq⟩, if_pos hyq, if_pos ⟨hxq, hzb⟩]
              · rw [if_neg (fun h => hxq h.1), if_pos hyq, if_neg (fun h => hxq h.1)]
            · rw [if_neg (fun h => hyq h.2), if_neg hyq]
          · rw [if_neg hzb]
            by_cases hyq : (qy : ℤ) = (iy : ℤ) + dy
            · rw [if_pos hyq, if_neg (fun h => hzb h.2)]
            · rw [if_neg hyq]
      rw [List.map_congr_left hdy,
        axis_sum bf ny iy qy
          (if (qx : ℤ) = (ix : ℤ) + dx ∧ ((qz : ℤ) - iz).natAbs ≤ bf then w else 0) hqy]
      by_cases hyb : ((qy : ℤ) - iy).natAbs ≤ bf
      · rw [if_pos hyb]
        by_cases hxq : (qx : ℤ) = (ix : ℤ) + dx
        · by_cases hzb : ((qz : ℤ) - iz).natAbs ≤ bf
          · rw [if_pos ⟨hxq, hzb⟩, if_pos hxq, if_pos ⟨hyb, hzb⟩]
          · rw [if_neg (fun h => hzb h.2), if_pos hxq, if_neg (fun h => hzb h.2)]
        · rw [if_neg (fun h => hxq h.1), if_neg hxq]
      · rw [if_neg hyb]
        by_cases hxq : (qx : ℤ) = (ix : ℤ) + dx
        · rw [if_pos hxq, if_neg (fun h => hyb h.1)]
        · rw [if_neg hxq]
  rw [List.map_congr_left hdx,
    axis_sum bf nx ix qx
      (if ((qy : ℤ) - iy).natAbs ≤ bf ∧ ((qz : ℤ) - iz).natAbs ≤ bf then w else 0) hqx]
  by_cases hxb : ((qx : ℤ) - ix).natAbs ≤ bf
  · rw [if_pos hxb]
    by_cases hyz : ((qy : ℤ) - iy).natAbs ≤ bf ∧ ((qz : ℤ) - iz).natAbs ≤ bf
    · rw [if_pos hyz, if_pos ⟨hxb, hyz.1, hyz.2⟩]
    · rw [if_neg hyz, if_neg (fun h => hyz ⟨h.2.1, h.2.2⟩)]
  · rw [if_neg hxb, if_neg (fun h => hxb h.1)]

/-- Neighborhood contribution of a single point of the outer cell. -/
def pointNbhd (K : ℕ) (rs : ℕ → ℚ) (bf nx ny nz : ℕ) (lat2 : ℕ → List Point)
    (p : Point) (ix iy iz : ℕ) (j : ℕ) : ℕ :=
  ((offsets bf).map fun dx =>
    if (ix : ℤ) + dx < 0 ∨ (nx : ℤ) ≤ (ix : ℤ) + dx then 0 else
    ((offsets bf).map fun dy =>
      if (iy : ℤ) + dy < 0 ∨ (ny : ℤ) ≤ (iy : ℤ) + dy then 0 else
      ((offsets bf).map fun dz =>
        if (iz : ℤ) + dz < 0 ∨ (nz : ℤ) ≤ (iz : ℤ) + dz then 0 else
        (lat2 (((ix : ℤ) + dx).toNat * (ny * nz) + ((iy : ℤ) + dy).toNat * nz
          + ((iz : ℤ) + dz).toNat)).countP fun q =>
            decide (pairBin K rs (sqdist p q) = some j)).sum).sum).sum

theorem nbhdCount_swap (K : ℕ) (rs : ℕ → ℚ) (bf nx ny nz : ℕ)
    (lat2 : ℕ → List Point) (ps : List Point) (ix iy iz : ℕ) (j : ℕ) :
    nbhdCount K rs bf nx ny nz lat2 ps ix iy iz j
      = (ps.map fun p => pointNbhd K rs bf nx ny nz lat2 p ix iy iz j).sum := by
  unfold nbhdCount pointNbhd cellPairCount
  have hdx : ∀ dx ∈ offsets bf,
      (if (ix : ℤ) + dx < 0 ∨ (nx : ℤ) ≤ (ix : ℤ) + dx then 0 else
        ((offsets bf).map fun dy =>
          if (iy : ℤ) + dy < 0 ∨ (ny : ℤ) ≤ (iy : ℤ) + dy then 0 else
          ((offsets bf).map fun dz =>
            if (iz : ℤ) + dz < 0 ∨ (nz : ℤ) ≤ (iz : ℤ) + dz then 0 else
            (ps.map fun p =>
              (lat2 (((ix : ℤ) + dx).toNat * (ny * nz) + ((iy : ℤ) + dy).toNat * nz
                + ((iz : ℤ) + dz).toNat)).countP fun q =>
                  decide (pairBin K rs (sqdist p q) = some j)).sum).sum).sum)
      = (if (ix : ℤ) + dx < 0 ∨ (nx : ℤ) ≤ (ix : ℤ) + dx then 0 else
          (ps.map fun p =>
            ((offsets bf).map fun dy =>
              if (iy : ℤ) + dy < 0 ∨ (ny : ℤ) ≤ (iy : ℤ) + dy then 0 else
              ((offsets bf).map fun dz =>
                if (iz : ℤ) + dz < 0 ∨ (nz : ℤ) ≤ (iz : ℤ) + dz then 0 else
                (lat2 (((ix : ℤ) + dx).toNat * (ny * nz) + ((iy : ℤ) + dy).toNat * nz
                  + ((iz : ℤ) + dz).toNat)).countP fun q =>
                    decide (pairBin K rs (sqdist p q) = some j)).sum).sum).sum) := by
    intro dx _
    by_cases hvx : (ix : ℤ) + dx < 0 ∨ (nx : ℤ) ≤ (ix : ℤ) + dx
    · rw [if_pos hvx, if_pos hvx]
    · rw [if_neg hvx, if_neg hvx]
      have hdy : ∀ dy ∈ offsets bf,
          (if (iy : ℤ) + dy < 0 ∨ (ny : ℤ) ≤ (iy : ℤ) + dy then 0 else
            ((offsets bf).map fun dz =>
              if (iz : ℤ) + dz < 0 ∨ (nz : ℤ) ≤ (iz : ℤ) + dz then 0 else
              (ps.map fun p =>
                (lat2 (((ix : ℤ) + dx).toNat * (ny * nz) + ((iy : ℤ) + dy).toNat * nz
                  + ((iz : ℤ) + dz).toNat)).countP fun q =>
                    decide (pairBin K rs (sqdist p q) = some j)).sum).sum)
          = (if (iy : ℤ) + dy < 0 ∨ (ny : ℤ) ≤ (iy : ℤ) + dy then 0 else
              (ps.map fun p =>
                ((offsets bf).map fun dz =>
                  if (iz : ℤ) + dz < 0 ∨ (nz : ℤ) ≤ (iz : ℤ) + dz then 0 else
                  (lat2 (((ix : ℤ) + dx).toNat * (ny * nz) + ((iy : ℤ) + dy).toNat * nz
                    + ((iz : ℤ) + dz).toNat)).countP fun q =>
                      decide (pairBin K rs (sqdist p q) = some j)).sum).sum) := by
        intro dy _
        by_cases hvy : (iy : ℤ) + dy < 0 ∨ (ny : ℤ) ≤ (iy : ℤ) + dy
        · rw [if_pos hvy, if_pos hvy]
        · rw [if_neg hvy, if_neg hvy]
          exact sum_map_ite_swap (offsets bf) ps _ _
      rw [List.map_congr_left hdy]
      exact sum_map_ite_swap (offsets bf) ps _ _
  rw [List.map_congr_left hdx]
  exact sum_map_ite_swap (offsets bf) ps _ _

theorem triple_sum_congr (bf : ℕ) (Px Py Pz : ℤ → Prop)
    [DecidablePred Px] [DecidablePred Py] [DecidablePred Pz]
    (F G : ℤ → ℤ → ℤ → ℕ)
    (h : ∀ dx dy dz, ¬ Px dx → ¬ Py dy → ¬ Pz dz → F dx dy dz = G dx dy dz) :
    ((offsets bf).map fun dx => if Px dx then 0 else
      ((offsets bf).map fun dy => if Py dy then 0 else
        ((offsets bf).map fun dz => if Pz dz then 0 else F dx dy dz).sum).sum).sum
    = ((offsets bf).map fun dx => if Px dx then 0 else
        ((offsets bf).map fun dy => if Py dy then 0 else
          ((offsets bf).map fun dz => if Pz dz then 0 else G dx dy dz).sum).sum).sum := by
  apply congrArg
  apply List.map_congr_left
  intro dx _
  by_cases hx : Px dx
  · rw [if_pos hx, if_pos hx]
  · rw [if_neg hx, if_neg hx]
    apply congrArg
    apply List.map_congr_left
    intro dy _
    by_cases hy : Py dy
    · rw [if_pos hy, if_pos hy]
    · rw [if_neg hy, if_neg hy]
      apply congrArg
      apply List.map_congr_left
      intro dz _
      by_cases hz : Pz dz
      · rw [if_pos hz, if_pos hz]
      · rw [if_neg hz, if_neg hz]
        exact h dx dy dz hx hy hz

theorem triple_ite_swap {α : Type} (bf : ℕ) (Px Py Pz : ℤ → Prop)
    [DecidablePred Px] [DecidablePred Py] [DecidablePred Pz]
    (l : List α) (F : α → ℤ → ℤ → ℤ → ℕ) :
    ((offsets bf).map fun dx => if Px dx then 0 else
      ((offsets bf).map fun dy => if Py dy then 0 else
        ((offsets bf).map fun dz => if Pz dz then 0 else
          (l.map fun a => F a dx dy dz).sum).sum).sum).sum
    = (l.map fun a =>
        ((offsets bf).map fun dx => if Px dx then 0 else
          ((offsets bf).map fun dy => if Py dy then 0 else
            ((offsets bf).map fun dz => if Pz dz then 0 else F a dx dy dz).sum).sum).sum).sum := by
  have hdx : ∀ dx ∈ offsets bf,
      (if Px dx then 0 else
        ((offsets bf).map fun dy => if Py dy then 0 else
          ((offsets bf).map fun dz => if Pz dz then 0 else
            (l.map fun a => F a dx dy dz).sum).sum).sum)
      = (if Px dx then 0 else
          (l.map fun a =>
            ((offsets bf).map fun dy => if Py dy then 0 else
              ((offsets bf).map fun dz => if Pz dz then 0 else F a dx dy dz).sum).sum).sum) := by
    intro dx _
    by_cases hx : Px dx
    · rw [if_pos hx, if_pos hx]
    · rw [if_neg hx, if_neg hx]
      have hdy : ∀ dy ∈ offsets bf,
          (if Py dy then 0 else
            ((offsets bf).map fun dz => if Pz dz then 0 else
              (l.map fun a => F a dx dy dz).sum).sum)
          = (if Py dy then 0 else
              (l.map fun a =>
                ((offsets bf).map fun dz => if Pz dz then 0 else F a dx dy dz).sum).sum) := by
        intro dy _
        by_cases hy : Py dy
        · rw [if_pos hy, if_pos hy]
        · rw [if_neg hy, if_neg hy]
          exact sum_map_ite_swap (offsets bf) l _ _
      rw [List.map_congr_left hdy]
      exact sum_map_ite_swap (offsets bf) l _ _
  rw [List.map_congr_left hdx]
  exact sum_map_ite_swap (offsets bf) l _ _

theorem pointNbhd_eq (K : ℕ) (rs : ℕ → ℚ) (b : BBox) (bf : ℕ) (rmax : ℚ)
    (D2 : List Point) (p : Point) (ix iy iz : ℕ) (j : ℕ) :
    pointNbhd K rs bf (nmX b bf rmax) (nmY b bf rmax) (nmZ b bf rmax)
      (cellList D2 b bf rmax) p ix iy iz j
      = D2.countP fun q => decide (
          ((cellIx b bf rmax q : ℤ) - ix).natAbs ≤ bf ∧
          ((cellIy b bf rmax q : ℤ) - iy).natAbs ≤ bf ∧
          ((cellIz b bf rmax q : ℤ) - iz).natAbs ≤ bf ∧
          pairBin K rs (sqdist p q) = some j) := by
  unfold pointNbhd
  rw [triple_sum_congr bf _ _ _ _
    (fun dx dy dz =>
      (D2.map fun q =>
        if (decide (pairBin K rs (sqdist p q) = some j)
            && decide (cellIndex b bf rmax q
              = ((ix : ℤ) + dx).toNat * (nmY b bf rmax * nmZ b bf rmax)
                + ((iy : ℤ) + dy).toNat * nmZ b bf rmax + ((iz : ℤ) + dz).toNat))
        then 1 else 0).sum)
    (fun dx dy dz _ _ _ => by
      unfold cellList
      rw [List.countP_filter, countP_eq_sum_map])]
  rw [triple_ite_swap bf _ _ _ D2
    (fun q dx dy dz =>
      if (decide (pairBin K rs (sqdist p q) = some j)
          && decide (cellIndex b bf rmax q
            = ((ix : ℤ) + dx).toNat * (nmY b bf rmax * nmZ b bf rmax)
              + ((iy : ℤ) + dy).toNat * nmZ b bf rmax + ((iz : ℤ) + dz).toNat))
      then 1 else 0)]
  rw [countP_eq_sum_map]
  apply congrArg
  apply List.map_congr_left
  intro q _
  rw [triple_sum_congr bf _ _ _ _
    (fun dx dy dz =>
      if cellIx b bf rmax q * (nmY b bf rmax * nmZ b bf rmax)
          + cellIy b bf rmax q * nmZ b bf rmax + cellIz b bf rmax q
          = ((ix : ℤ) + dx).toNat * (nmY b bf rmax * nmZ b bf rmax)
            + ((iy : ℤ) + dy).toNat * nmZ b bf rmax + ((iz : ℤ) + dz).toNat
      then (if pairBin K rs (sqdist p q) = some j then 1 else 0) else 0)
    (fun dx dy dz _ _ _ => by
      dsimp only
      simp only [Bool.and_eq_true, decide_eq_true_eq]
      by_cases hc : cellIndex b bf rmax q
          = ((ix : ℤ) + dx).toNat * (nmY b bf rmax * nmZ b bf rmax)
            + ((iy : ℤ) + dy).toNat * nmZ b bf rmax + ((iz : ℤ) + dz).toNat
      · by_cases hp : pairBin K rs (sqdist p q) = some j
        · rw [if_pos ⟨hp, hc⟩, if_pos (show cellIx b bf rmax q * (nmY b bf rmax * nmZ b bf rmax)
            + cellIy b bf rmax q * nmZ b bf rmax + cellIz b bf rmax q
            = ((ix : ℤ) + dx).toNat * (nmY b bf rmax * nmZ b bf rmax)
              + ((iy : ℤ) + dy).toNat * nmZ b bf rmax + ((iz : ℤ) + dz).toNat from hc), if_pos hp]
        · rw [if_neg (fun h => hp h.1), if_pos (show cellIx b bf rmax q * (nmY b bf rmax * nmZ b bf rmax)
            + cellIy b bf rmax q * nmZ b bf rmax + cellIz b bf rmax q
            = ((ix : ℤ) + dx).toNat * (nmY b bf rmax * nmZ b bf rmax)
              + ((iy : ℤ) + dy).toNat * nmZ b bf rmax + ((iz : ℤ) + dz).toNat from hc), if_neg hp]
      · rw [if_neg (fun h => hc h.2), if_neg (show ¬ (cellIx b bf rmax q * (nmY b bf rmax * nmZ b bf rmax)
          + cellIy b bf rmax q * nmZ b bf rmax + cellIz b bf rmax q
          = ((ix : ℤ) + dx).toNat * (nmY b bf rmax * nmZ b bf rmax)
            + ((iy : ℤ) + dy).toNat * nmZ b bf rmax + ((iz : ℤ) + dz).toNat) from hc)])]
  rw [tripleOffsets_eq bf (nmX b bf rmax) (nmY b bf rmax) (nmZ b bf rmax) ix iy iz
    (cellIx b bf rmax q) (cellIy b bf rmax q) (cellIz b bf rmax q)
    (if pairBin K rs (sqdist p q) = some j then 1 else 0)
    (cellAxis_lt _ _ _ _ (nmeshAxis_pos _ _ _ _))
    (cellAxis_lt _ _ _ _ (nmeshAxis_pos _ _ _ _))
    (cellAxis_lt _ _ _ _ (nmeshAxis_pos _ _ _ _))]
  by_cases h3 : ((cellIx b bf rmax q : ℤ) - ix).natAbs ≤ bf ∧
      ((cellIy b bf rmax q : ℤ) - iy).natAbs ≤ bf ∧
      ((cellIz b bf rmax q : ℤ) - iz).natAbs ≤ bf
  · rw [if_pos h3]
    by_cases hp : pairBin K rs (sqdist p q) = some j
    · rw [if_pos hp, if_pos (by simp [h3.1, h3.2.1, h3.2.2, hp])]
    · rw [if_neg hp, if_neg (by simp [hp])]
  · rw [if_neg h3, if_neg (by
      simp only [decide_eq_true_eq]
      intro hcon
      exact h3 ⟨hcon.1, hcon.2.1, hcon.2.2.1⟩)]

/-- The outer cell's row-major index is within `totncells`. -/
theorem cellIndex_lt (b : BBox) (bf : ℕ) (rmax : ℚ) (p : Point) :
    cellIndex b bf rmax p < nmX b bf rmax * nmY b bf rmax * nmZ b bf rmax := by
  have hx : cellIx b bf rmax p < nmX b bf rmax :=
    cellAxis_lt _ _ _ _ (nmeshAxis_pos _ _ _ _)
  have hy : cellIy b bf rmax p < nmY b bf rmax :=
    cellAxis_lt _ _ _ _ (nmeshAxis_pos _ _ _ _)
  have hz : cellIz b bf rmax p < nmZ b bf rmax :=
    cellAxis_lt _ _ _ _ (nmeshAxis_pos _ _ _ _)
  unfold cellIndex
  have h1 : (cellIy b bf rmax p + 1) * nmZ b bf rmax ≤ nmY b bf rmax * nmZ b bf rmax :=
    Nat.mul_le_mul_right _ (by omega)
  have h1' : (cellIy b bf rmax p + 1) * nmZ b bf rmax
      = cellIy b bf rmax p * nmZ b bf rmax + nmZ b bf rmax := by ring
  have h2 : (cellIx b bf rmax p + 1) * (nmY b bf rmax * nmZ b bf rmax)
      ≤ nmX b bf rmax * (nmY b bf rmax * nmZ b bf rmax) :=
    Nat.mul_le_mul_right _ (by omega)
  have h2' : (cellIx b bf rmax p + 1) * (nmY b bf rmax * nmZ b bf rmax)
      = cellIx b bf rmax p * (nmY b bf rmax * nmZ b bf rmax)
        + nmY b bf rmax * nmZ b bf rmax := by ring
  have hassoc : nmX b bf rmax * nmY b bf rmax * nmZ b bf rmax
      = nmX b bf rmax * (nmY b bf rmax * nmZ b bf rmax) := by ring
  omega

/-- Total contribution of a list of outer cells. -/
def cellsCount (K : ℕ) (rs : ℕ → ℚ) (bf nx ny nz : ℕ) (lat1 lat2 : ℕ → List Point)
    (cells : List ℕ) (j : ℕ) : ℕ :=
  (cells.map fun c => nbhdCount K rs bf nx ny nz lat2 (lat1 c)
    (decodeIx ny nz c) (decodeIy ny nz c) (decodeIz nz c) j).sum

theorem engineCells_hist (K : ℕ) (rs : ℕ → ℚ) (bf nx ny nz : ℕ)
    (lat1 lat2 : ℕ → List Point) (cells : List ℕ) (s : KState) (j : ℕ)
    (hb : histBounded s) :
    (engineCells K rs bf nx ny nz lat1 lat2 cells s).hist j
      = (s.hist j + cellsCount K rs bf nx ny nz lat1 lat2 cells j) % UINT_MOD := by
  unfold engineCells cellsCount
  exact foldl_hist_mod _
    (fun c j => nbhdCount K rs bf nx ny nz lat2 (lat1 c)
      (decodeIx ny nz c) (decodeIy ny nz c) (decodeIz nz c) j)
    (fun s c j h => neighborFold_hist K rs bf nx ny nz lat2 (lat1 c) _ _ _ s j h)
    (fun s c h => neighborFold_bounded K rs bf nx ny nz lat2 (lat1 c) _ _ _ s h)
    cells s j hb

theorem engineCells_bounded (K : ℕ) (rs : ℕ → ℚ) (bf nx ny nz : ℕ)
    (lat1 lat2 : ℕ → List Point) (cells : List ℕ) (s : KState)
    (hb : histBounded s) :
    histBounded (engineCells K rs bf nx ny nz lat1 lat2 cells s) := by
  unfold engineCells
  exact foldl_preserve_bounded _
    (fun s c h => neighborFold_bounded K rs bf nx ny nz lat2 (lat1 c) _ _ _ s h)
    cells s hb

theorem init_bounded : histBounded KState.init := by
  intro j
  simp [KState.init, UINT_MOD]

/-- Summing the per-cell neighborhood counts over the whole lattice yields the
reference pair count: every (p, q) pair in neighboring cells is counted exactly
once, by the outer cell owning `p`. -/
theorem cellsCount_eq_spec (K : ℕ) (rupp : ℕ → ℚ) (b : BBox) (bf : ℕ) (rmax : ℚ)
    (D1 D2 : List Point) (j : ℕ) :
    cellsCount K (ruppSqr rupp) bf (nmX b bf rmax) (nmY b bf rmax) (nmZ b bf rmax)
      (cellList D1 b bf rmax) (cellList D2 b bf rmax)
      (List.range (nmX b bf rmax * nmY b bf rmax * nmZ b bf rmax)) j
    = pairCountSpec K rupp b bf rmax D1 D2 j := by
  unfold cellsCount
  have h1 : ∀ c ∈ List.range (nmX b bf rmax * nmY b bf rmax * nmZ b bf rmax),
      nbhdCount K (ruppSqr rupp) bf (nmX b bf rmax) (nmY b bf rmax) (nmZ b bf rmax)
        (cellList D2 b bf rmax) (cellList D1 b bf rmax c)
        (decodeIx (nmY b bf rmax) (nmZ b bf rmax) c)
        (decodeIy (nmY b bf rmax) (nmZ b bf rmax) c)
        (decodeIz (nmZ b bf rmax) c) j
      = (D1.map fun p => if cellIndex b bf rmax p = c then
          pointNbhd K (ruppSqr rupp) bf (nmX b bf rmax) (nmY b bf rmax) (nmZ b bf rmax)
            (cellList D2 b bf rmax) p
            (decodeIx (nmY b bf rmax) (nmZ b bf rmax) c)
            (decodeIy (nmY b bf rmax) (nmZ b bf rmax) c)
            (decodeIz (nmZ b bf rmax) c) j else 0).sum := by
    intro c _
    rw [nbhdCount_swap]
    rw [show cellList D1 b bf rmax c
        = D1.filter (fun p => decide (cellIndex b bf rmax p = c)) from rfl]
    rw [sum_map_filter]
    apply congrArg
    apply List.map_congr_left
    intro p _
    by_cases hc : cellIndex b bf rmax p = c
    · rw [if_pos (by simpa using hc), if_pos hc]
    · rw [if_neg (by simpa using hc), if_neg hc]
  rw [List.map_congr_left h1, sum_map_swap]
  unfold pairCountSpec
  apply congrArg
  apply List.map_congr_left
  intro p _
  rw [sum_range_single _ (cellIndex b bf rmax p) _ (cellIndex_lt b bf rmax p)]
  have hx : cellIx b bf rmax p < nmX b bf rmax :=
    cellAxis_lt _ _ _ _ (nmeshAxis_pos _ _ _ _)
  have hy : cellIy b bf rmax p < nmY b bf rmax :=
    cellAxis_lt _ _ _ _ (nmeshAxis_pos _ _ _ _)
  have hz : cellIz b bf rmax p < nmZ b bf rmax :=
    cellAxis_lt _ _ _ _ (nmeshAxis_pos _ _ _ _)
  have hdec := decode_encode (nmX b bf rmax) (nmY b bf rmax) (nmZ b bf rmax)
    (cellIx b bf rmax p) (cellIy b bf rmax p) (cellIz b bf rmax p) hx hy hz
  rw [show cellIndex b bf rmax p
      = cellIx b bf rmax p * (nmY b bf rmax * nmZ b bf rmax)
        + cellIy b bf rmax p * nmZ b bf rmax + cellIz b bf rmax p from rfl,
    hdec.1, hdec.2.1, hdec.2.2]
  rw [pointNbhd_eq]
  apply List.countP_congr
  intro q _
  simp only [decide_eq_true_eq]
  unfold inNbhd
  tauto

/-- The serial engine's histogram: each bin holds the reference pair count
reduced modulo `2^32` (the `unsigned int` counter width). -/
theorem countpairsNopbc_hist (D1 D2 : List Point) (b : BBox) (autocorr : Bool)
    (rpmax : ℚ) (numthreads K : ℕ) (rupp : ℕ → ℚ) (j : ℕ) :
    (countpairsNopbc D1 D2 b autocorr rpmax numthreads K rupp).hist j
      = pairCountSpec K rupp b (binRefineFactor numthreads) rpmax D1
          (if autocorr then D1 else D2) j % UINT_MOD := by
  cases autocorr with
  | false =>
    simp only [countpairsNopbc, Bool.false_eq_true, if_false]
    rw [engineCells_hist _ _ _ _ _ _ _ _ _ _ _ init_bounded, cellsCount_eq_spec]
    simp [KState.init]
  | true =>
    simp only [countpairsNopbc, if_true]
    rw [engineCells_hist _ _ _ _ _ _ _ _ _ _ _ init_bounded, cellsCount_eq_spec]
    simp [KState.init]

/-! ### Claim C9: the driver's index reconstruction -/

/-- C9: for every outer-cell linear index `c < nx·ny·nz`, the coordinates the
driver recovers by `iz = c mod nz`, `ix = c div (nz·ny)`,
`iy = (c - iz - ix·nz·ny) div nz` (lines 142-144) satisfy
`iz + nz·iy + nz·ny·ix = c`, so the assertion at line 145 never fails. -/
theorem claim_C9_index_reconstruction (nx ny nz c : ℕ) (h : c < nx * ny * nz) :
    decodeIz nz c + nz * decodeIy ny nz c + nz * ny * decodeIx ny nz c = c := by
  have hpos : 0 < nx * ny * nz := by omega
  have hnz : 0 < nz := by
    rcases Nat.eq_zero_or_pos nz with h0 | h0
    · rw [h0, Nat.mul_zero] at hpos; omega
    · exact h0
  unfold decodeIy decodeIz decodeIx
  have h1 : c % (nz * ny) % nz = c % nz := Nat.mod_mod_of_dvd c ⟨ny, rfl⟩
  have h2 := Nat.div_add_mod c (nz * ny)
  have h3 := Nat.div_add_mod (c % (nz * ny)) nz
  have hb1 : c / (nz * ny) * (nz * ny) = nz * ny * (c / (nz * ny)) := by ring
  have h5 : c - c % nz - c / (nz * ny) * (nz * ny) = nz * (c % (nz * ny) / nz) := by
    omega
  rw [h5, Nat.mul_div_cancel_left _ hnz]
  have hcomm : nz * ny * (c / (nz * ny)) = c / (nz * ny) * (nz * ny) := by ring
  omega

theorem claim_C9_witness :
    5 < 2 * 2 * 2 ∧
    decodeIz 2 5 + 2 * decodeIy 2 2 5 + 2 * 2 * decodeIx 2 2 5 = 5 :=
  ⟨by decide, claim_C9_index_reconstruction 2 2 2 5 (by decide)⟩

/-! ### Claim C7: the output loop -/

/-- The output loop writes `npairs i` to every slot `i ∈ [1, K-1]` and leaves
every other slot of the destination array untouched. -/
theorem writeOutput_eq (K : ℕ) (npairs : ℕ → ℕ) (pc : ℕ → ℤ) :
    writeOutput K npairs pc
      = fun j => if j ∈ List.range' 1 (K - 1) then (npairs j : ℤ) else pc j := by
  unfold writeOutput
  generalize List.range' 1 (K - 1) = l
  induction l generalizing pc with
  | nil => funext j; simp
  | cons a l ih =>
    rw [List.foldl_cons, ih]
    funext j
    by_cases hl : j ∈ l
    · rw [if_pos hl, if_pos (List.mem_cons_of_mem a hl)]
    · rw [if_neg hl]
      by_cases ha : j = a
      · subst ha
        rw [if_pos rfl, if_pos (List.mem_cons_self j l)]
      · rw [if_neg ha, if_neg (by
          intro hm
          rcases List.mem_cons.mp hm with h | h
          · exact ha h
          · exact hl h)]

/-- C7 counterexample: the output loop never writes slot 0, so when the
destination array does not already hold 0 there, slot 0 of the returned
histogram is not 0: with `K = 2` and a destination prefilled with 7, the
returned slot 0 is 7. -/
theorem claim_C7_counterexample :
    writeOutput 2 (fun _ => 5) (fun _ => 7) 0 = 7 ∧ (7 : ℤ) ≠ 0 := by
  constructor
  · rfl
  · decide

/-- C7 (amended): on return from the output loop (lines 393-403), slots
`1..K-1` hold the pair counts, but slot 0 is left exactly as it was in the
destination array — the loop starts at `i = 1` and never writes slot 0, so
nothing guarantees the reported bin 0 is zero. -/
theorem claim_C7_amended (K : ℕ) (npairs : ℕ → ℕ) (pc : ℕ → ℤ) (i : ℕ)
    (h1 : 1 ≤ i) (h2 : i ≤ K - 1) :
    writeOutput K npairs pc i = npairs i ∧ writeOutput K npairs pc 0 = pc 0 := by
  rw [writeOutput_eq]
  constructor
  · dsimp only
    rw [if_pos (by
      rw [List.mem_range'_1]
      omega)]
  · dsimp only
    rw [if_neg (by
      rw [List.mem_range'_1]
      omega)]

theorem claim_C7_witness :
    1 ≤ 1 ∧ 1 ≤ 3 - 1 ∧
    (writeOutput 3 (fun i => i + 10) (fun _ => 7) 1 = 11 ∧
      writeOutput 3 (fun i => i + 10) (fun _ => 7) 0 = 7) := by
  refine ⟨by decide, by decide, ?_⟩
  have h := claim_C7_amended 3 (fun i => i + 10) (fun _ => 7) 1 (by decide) (by decide)
  exact ⟨h.1, h.2⟩

/-! ### Claim C8: the counter width -/

/-- Iterating the C counter increment: the counter holds the count modulo
`2^32`, the width of `unsigned int`. -/
theorem uintIncr_iterate (n : ℕ) : uintIncr^[n] 0 = n % UINT_MOD := by
  induction n with
  | zero =>
    simp [UINT_MOD]
  | succ n ih =>
    rw [Function.iterate_succ_apply', ih]
    unfold uintIncr
    rw [Nat.mod_add_mod]

/-- C8 counterexample: the histogram counters are `unsigned int`
(`unsigned int npairs[nrpbin]`, line 78), not 64-bit: a bin that receives
`2^32` pairs reads back 0, although `2^32 % 2^64 ≠ 0` — wraparound occurs
long before `2^64` pairs. -/
theorem claim_C8_counterexample :
    uintIncr^[2 ^ 32] 0 = 0 ∧ (2 ^ 32 : ℕ) % 2 ^ 64 ≠ 0 := by
  constructor
  · rw [uintIncr_iterate]
    unfold UINT_MOD
    exact Nat.mod_self _
  · norm_num

/-- C8 (amended): the histogram is maintained in `unsigned int` (32-bit)
counters, so each returned bin equals the true pair count reduced modulo
`2^32` (no wraparound occurs only below `2^32` pairs per bin). -/
theorem claim_C8_amended (D1 D2 : List Point) (b : BBox) (autocorr : Bool)
    (rpmax : ℚ) (numthreads K : ℕ) (rupp : ℕ → ℚ) (j : ℕ) :
    (countpairsNopbc D1 D2 b autocorr rpmax numthreads K rupp).hist j
      = pairCountSpec K rupp b (binRefineFactor numthreads) rpmax D1
          (if autocorr then D1 else D2) j % UINT_MOD :=
  countpairsNopbc_hist D1 D2 b autocorr rpmax numthreads K rupp j

/-! ### Claim C4: cross-correlation symmetry -/

theorem sqdist_comm (p q : Point) : sqdist p q = sqdist q p := by
  unfold sqdist
  ring

theorem sum_countP_swap {α β : Type} (l1 : List α) (l2 : List β)
    (R : α → β → Prop) [∀ a b', Decidable (R a b')] :
    (l1.map fun a => l2.countP fun b' => decide (R a b')).sum
      = (l2.map fun b' => l1.countP fun a => decide (R a b')).sum := by
  have h1 : ∀ a ∈ l1, (l2.countP fun b' => decide (R a b'))
      = (l2.map fun b' => if R a b' then 1 else 0).sum := by
    intro a _
    rw [countP_eq_sum_map]
    apply congrArg
    apply List.map_congr_left
    intro b' _
    by_cases h : R a b'
    · rw [if_pos (by simpa using h), if_pos h]
    · rw [if_neg (by simpa using h), if_neg h]
  have h2 : ∀ b' ∈ l2, (l1.countP fun a => decide (R a b'))
      = (l1.map fun a => if R a b' then 1 else 0).sum := by
    intro b' _
    rw [countP_eq_sum_map]
    apply congrArg
    apply List.map_congr_left
    intro a _
    by_cases h : R a b'
    · rw [if_pos (by simpa using h), if_pos h]
    · rw [if_neg (by simpa using h), if_neg h]
  rw [List.map_congr_left h1, List.map_congr_left h2, sum_map_swap]

/-- The reference pair count is symmetric in the two catalogs: cell
neighborhoods and squared distances are both symmetric relations. -/
theorem pairCountSpec_comm (K : ℕ) (rupp : ℕ → ℚ) (b : BBox) (bf : ℕ)
    (rmax : ℚ) (D1 D2 : List Point) (j : ℕ) :
    pairCountSpec K rupp b bf rmax D1 D2 j = pairCountSpec K rupp b bf rmax D2 D1 j := by
  unfold pairCountSpec
  rw [sum_countP_swap]
  apply congrArg
  apply List.map_congr_left
  intro q _
  apply List.countP_congr
  intro p _
  simp only [decide_eq_true_eq]
  constructor
  · rintro ⟨hn, hb⟩
    refine ⟨?_, by rwa [sqdist_comm]⟩
    unfold inNbhd at *
    omega
  · rintro ⟨hn, hb⟩
    refine ⟨?_, by rwa [sqdist_comm]⟩
    unfold inNbhd at *
    omega

/-- C4: for any two point clouds in the same bounding box and any bin-edge
table, running the engine with `(D1, D2)` and with the arguments swapped
`(D2, D1)` produces identical output histograms in every bin. -/
theorem claim_C4_cross_symmetry (D1 D2 : List Point) (b : BBox) (rpmax : ℚ)
    (numthreads K : ℕ) (rupp : ℕ → ℚ) (j : ℕ) :
    (countpairsNopbc D1 D2 b false rpmax numthreads K rupp).hist j
      = (countpairsNopbc D2 D1 b false rpmax numthreads K rupp).hist j := by
  rw [countpairsNopbc_hist, countpairsNopbc_hist]
  simp only [Bool.false_eq_true, if_false]
  rw [pairCountSpec_comm]

/-! ### Neighborhood coverage: cells of close points are close -/

theorem pairBin_lt_max {K : ℕ} {rs : ℕ → ℚ} {r2 : ℚ} {j : ℕ}
    (h : pairBin K rs r2 = some j) : r2 < rs (K - 1) := by
  by_cases hc : rs (K - 1) ≤ r2 ∨ r2 < rs 0
  · rw [pairBin_out K rs r2 hc] at h
    cases h
  · push_neg at hc
    exact hc.1

/-- Clamped floor binning moves by at most `bf` cells when the coordinate
moves by at most `bf` cell widths. -/
theorem cellAxis_lipschitz (lo hi : ℚ) (n bf : ℕ) (u v : ℚ)
    (hw : 0 < (hi - lo) / n)
    (hub : |u - v| ≤ (bf : ℚ) * ((hi - lo) / n)) :
    ((cellAxis lo hi n u : ℤ) - (cellAxis lo hi n v : ℤ)).natAbs ≤ bf := by
  have h1 : (u - lo) / ((hi - lo) / n) ≤ (v - lo) / ((hi - lo) / n) + (bf : ℚ) := by
    have ha : (u - lo) / ((hi - lo) / n) - (v - lo) / ((hi - lo) / n)
        = (u - v) / ((hi - lo) / n) := by ring
    have hb : (u - v) / ((hi - lo) / n) ≤ (bf : ℚ) := by
      rw [div_le_iff hw]
      calc u - v ≤ |u - v| := le_abs_self _
      _ ≤ (bf : ℚ) * ((hi - lo) / n) := hub
    linarith
  have h2 : (v - lo) / ((hi - lo) / n) ≤ (u - lo) / ((hi - lo) / n) + (bf : ℚ) := by
    have ha : (v - lo) / ((hi - lo) / n) - (u - lo) / ((hi - lo) / n)
        = (v - u) / ((hi - lo) / n) := by ring
    have hb : (v - u) / ((hi - lo) / n) ≤ (bf : ℚ) := by
      rw [div_le_iff hw]
      calc v - u ≤ |u - v| := by rw [abs_sub_comm]; exact le_abs_self _
      _ ≤ (bf : ℚ) * ((hi - lo) / n) := hub
    linarith
  have hcast : ((bf : ℚ)) = ((bf : ℤ) : ℚ) := by push_cast; ring
  have hf1 : ⌊(u - lo) / ((hi - lo) / n)⌋ ≤ ⌊(v - lo) / ((hi - lo) / n)⌋ + (bf : ℤ) := by
    calc ⌊(u - lo) / ((hi - lo) / n)⌋
        ≤ ⌊(v - lo) / ((hi - lo) / n) + ((bf : ℤ) : ℚ)⌋ :=
          Int.floor_mono (by rw [← hcast]; exact h1)
    _ = ⌊(v - lo) / ((hi - lo) / n)⌋ + (bf : ℤ) := Int.floor_add_int _ _
  have hf2 : ⌊(v - lo) / ((hi - lo) / n)⌋ ≤ ⌊(u - lo) / ((hi - lo) / n)⌋ + (bf : ℤ) := by
    calc ⌊(v - lo) / ((hi - lo) / n)⌋
        ≤ ⌊(u - lo) / ((hi - lo) / n) + ((bf : ℤ) : ℚ)⌋ :=
          Int.floor_mono (by rw [← hcast]; exact h2)
    _ = ⌊(u - lo) / ((hi - lo) / n)⌋ + (bf : ℤ) := Int.floor_add_int _ _
  unfold cellAxis
  omega

theorem nmeshAxis_le (lo hi : ℚ) (bf : ℕ) (rmax : ℚ)
    (h2 : 2 ≤ nmeshAxis lo hi bf rmax) :
    (nmeshAxis lo hi bf rmax : ℚ) ≤ (hi - lo) * bf / rmax := by
  have hfl : ((nmeshAxis lo hi bf rmax : ℤ)) ≤ ⌊(hi - lo) * bf / rmax⌋ := by
    unfold nmeshAxis at h2 ⊢
    omega
  calc (nmeshAxis lo hi bf rmax : ℚ) = ((nmeshAxis lo hi bf rmax : ℤ) : ℚ) := by
        push_cast
        ring
  _ ≤ (⌊(hi - lo) * bf / rmax⌋ : ℚ) := by exact_mod_cast hfl
  _ ≤ (hi - lo) * bf / rmax := Int.floor_le _

/-- Two coordinates closer than `rmax` land in lattice cells at most `bf`
apart, for the lattice size `gridlink` chooses. -/
theorem cellAxis_close (lo hi : ℚ) (bf : ℕ) (rmax : ℚ) (u v : ℚ)
    (hlh : lo < hi) (hr : 0 < rmax) (hbf : 1 ≤ bf)
    (hd : |u - v| < rmax) :
    ((cellAxis lo hi (nmeshAxis lo hi bf rmax) u : ℤ)
      - (cellAxis lo hi (nmeshAxis lo hi bf rmax) v : ℤ)).natAbs ≤ bf := by
  by_cases h1 : nmeshAxis lo hi bf rmax = 1
  · unfold cellAxis
    rw [h1]
    simp
  · have hn2 : 2 ≤ nmeshAxis lo hi bf rmax := by
      have := nmeshAxis_pos lo hi bf rmax
      omega
    have hnposQ : (0 : ℚ) < (nmeshAxis lo hi bf rmax : ℚ) := by
      exact_mod_cast Nat.lt_of_lt_of_le Nat.zero_lt_two hn2
    have hwpos : 0 < (hi - lo) / (nmeshAxis lo hi bf rmax : ℚ) := by
      apply div_pos (by linarith) hnposQ
    have hkey : rmax ≤ (bf : ℚ) * ((hi - lo) / (nmeshAxis lo hi bf rmax : ℚ)) := by
      have hle := nmeshAxis_le lo hi bf rmax hn2
      rw [le_div_iff hr] at hle
      rw [mul_div_assoc', le_div_iff hnposQ]
      calc rmax * (nmeshAxis lo hi bf rmax : ℚ)
          = (nmeshAxis lo hi bf rmax : ℚ) * rmax := by ring
      _ ≤ (hi - lo) * bf := hle
      _ = (bf : ℚ) * (hi - lo) := by ring
    exact cellAxis_lipschitz lo hi (nmeshAxis lo hi bf rmax) bf u v hwpos
      (le_trans (le_of_lt hd) hkey)

theorem axis_lt_of_sqdist (p q : Point) (rmax : ℚ) (hr : 0 < rmax)
    (h : sqdist p q < rmax * rmax) :
    |p.x - q.x| < rmax ∧ |p.y - q.y| < rmax ∧ |p.z - q.z| < rmax := by
  unfold sqdist at h
  refine ⟨?_, ?_, ?_⟩
  · by_contra hc
    push_neg at hc
    have h1 : rmax * rmax ≤ |p.x - q.x| * |p.x - q.x| :=
      mul_le_mul hc hc (le_of_lt hr) (abs_nonneg _)
    rw [abs_mul_abs_self] at h1
    have h2 := mul_self_nonneg (p.y - q.y)
    have h3 := mul_self_nonneg (p.z - q.z)
    linarith
  · by_contra hc
    push_neg at hc
    have h1 : rmax * rmax ≤ |p.y - q.y| * |p.y - q.y| :=
      mul_le_mul hc hc (le_of_lt hr) (abs_nonneg _)
    rw [abs_mul_abs_self] at h1
    have h2 := mul_self_nonneg (p.x - q.x)
    have h3 := mul_self_nonneg (p.z - q.z)
    linarith
  · by_contra hc
    push_neg at hc
    have h1 : rmax * rmax ≤ |p.z - q.z| * |p.z - q.z| :=
      mul_le_mul hc hc (le_of_lt hr) (abs_nonneg _)
    rw [abs_mul_abs_self] at h1
    have h2 := mul_self_nonneg (p.x - q.x)
    have h3 := mul_self_nonneg (p.y - q.y)
    linarith

/-- Any pair closer than `rmax` lies in neighboring cells: the lattice
spacing guarantees the offset enumeration reaches every pair the kernel
should count. -/
theorem inNbhd_of_close (b : BBox) (bf : ℕ) (rmax : ℚ) (p q : Point)
    (hx : b.xmin < b.xmax) (hy : b.ymin < b.ymax) (hz : b.zmin < b.zmax)
    (hr : 0 < rmax) (hbf : 1 ≤ bf)
    (hd : sqdist p q < rmax * rmax) : inNbhd b bf rmax p q := by
  obtain ⟨hdx, hdy, hdz⟩ := axis_lt_of_sqdist p q rmax hr hd
  refine ⟨?_, ?_, ?_⟩
  · exact cellAxis_close b.xmin b.xmax bf rmax q.x p.x hx hr hbf
      (by rw [abs_sub_comm]; exact hdx)
  · exact cellAxis_close b.ymin b.ymax bf rmax q.y p.y hy hr hbf
      (by rw [abs_sub_comm]; exact hdy)
  · exact cellAxis_close b.zmin b.zmax bf rmax q.z p.z hz hr hbf
      (by rw [abs_sub_comm]; exact hdz)

/-- Count of ordered pairs landing in bin `j`, with no neighborhood
restriction. -/
def pairCountTotal (K : ℕ) (rupp : ℕ → ℚ) (D1 D2 : List Point) (j : ℕ) : ℕ :=
  (D1.map fun p => D2.countP fun q =>
    decide (pairBin K (ruppSqr rupp) (sqdist p q) = some j)).sum

/-- When the bin range fits under `rmax`, the neighborhood restriction in the
reference count is vacuous: the engine's lattice clipping loses no pairs. -/
theorem pairCountSpec_coverage (K : ℕ) (rupp : ℕ → ℚ) (b : BBox) (bf : ℕ)
    (rmax : ℚ) (D1 D2 : List Point) (j : ℕ)
    (hx : b.xmin < b.xmax) (hy : b.ymin < b.ymax) (hz : b.zmin < b.zmax)
    (hr : 0 < rmax) (hbf : 1 ≤ bf)
    (hK : ruppSqr rupp (K - 1) ≤ rmax * rmax) :
    pairCountSpec K rupp b bf rmax D1 D2 j = pairCountTotal K rupp D1 D2 j := by
  unfold pairCountSpec pairCountTotal
  apply congrArg
  apply List.map_congr_left
  intro p _
  apply List.countP_congr
  intro q _
  simp only [decide_eq_true_eq]
  constructor
  · rintro ⟨_, hb⟩
    exact hb
  · intro hb
    refine ⟨?_, hb⟩
    have hlt : sqdist p q < rmax * rmax := lt_of_lt_of_le (pairBin_lt_max hb) hK
    exact inNbhd_of_close b bf rmax p q hx hy hz hr hbf hlt

/-! ### Claim C5: the OpenMP reduction -/

theorem uint_mod_pos : 0 < UINT_MOD := by
  unfold UINT_MOD
  positivity

theorem foldl_mod_add (L : List ℕ) : ∀ a : ℕ, a < UINT_MOD →
    L.foldl (fun acc h => (acc + h) % UINT_MOD) a = (a + L.sum) % UINT_MOD := by
  induction L with
  | nil =>
    intro a ha
    simp [Nat.mod_eq_of_lt ha]
  | cons x L ih =>
    intro a ha
    simp only [List.foldl_cons, List.sum_cons]
    rw [ih _ (Nat.mod_lt _ uint_mod_pos), Nat.mod_add_mod]
    congr 1
    omega

theorem sum_map_mod {α : Type} (L : List α) (f : α → ℕ) :
    (L.map fun a => f a % UINT_MOD).sum % UINT_MOD = (L.map f).sum % UINT_MOD := by
  induction L with
  | nil => rfl
  | cons a L ih =>
    simp only [List.map_cons, List.sum_cons]
    rw [Nat.mod_add_mod, Nat.add_mod, ih, ← Nat.add_mod]

/-- The per-thread static partition of the outer cells reassembles the full
cell sum: every cell is processed by exactly the thread its schedule
assigned it to. -/
theorem sum_partition (T : ℕ) (cells : List ℕ) (assign : ℕ → ℕ)
    (F : ℕ → ℕ) (h : ∀ c ∈ cells, assign c < T) :
    ((List.range T).map fun t =>
      ((cells.filter fun c => decide (assign c = t)).map F).sum).sum
      = (cells.map F).sum := by
  induction cells with
  | nil =>
    simp
  | cons c cs ih =>
    have hstep : ∀ t ∈ List.range T,
        (((c :: cs).filter fun c' => decide (assign c' = t)).map F).sum
        = (if assign c = t then F c else 0)
          + ((cs.filter fun c' => decide (assign c' = t)).map F).sum := by
      intro t _
      rw [List.filter_cons]
      by_cases hct : assign c = t
      · rw [if_pos (by simpa using hct), if_pos hct]
        simp
      · rw [if_neg (by simpa using hct), if_neg hct]
        simp
    rw [List.map_congr_left hstep]
    have hsplit : ((List.range T).map fun t =>
        (if assign c = t then F c else 0)
          + ((cs.filter fun c' => decide (assign c' = t)).map F).sum).sum
        = ((List.range T).map fun t => if assign c = t then F c else 0).sum
          + ((List.range T).map fun t =>
              ((cs.filter fun c' => decide (assign c' = t)).map F).sum).sum :=
      sum_map_add _ _ _
    rw [hsplit, sum_range_single T (assign c) _ (h c (List.mem_cons_self c cs)),
      ih (fun c' hc' => h c' (List.mem_cons_of_mem c hc'))]
    simp

/-- Per-thread engine runs over a static cell partition, reduced with
`unsigned int` addition (lines 362-370), equal the single run over all
cells modulo `2^32`. -/
theorem engineCells_partition (K : ℕ) (rs : ℕ → ℚ) (bf nx ny nz : ℕ)
    (lat1 lat2 : ℕ → List Point) (N T : ℕ) (assign : ℕ → ℕ) (j : ℕ)
    (hassign : ∀ c, assign c < T) :
    (((List.range T).map fun t =>
      (engineCells K rs bf nx ny nz lat1 lat2
        ((List.range N).filter fun c => decide (assign c = t))
        KState.init).hist j).foldl (fun acc h => (acc + h) % UINT_MOD) 0)
    = cellsCount K rs bf nx ny nz lat1 lat2 (List.range N) j % UINT_MOD := by
  have hmap : ∀ t ∈ List.range T,
      (engineCells K rs bf nx ny nz lat1 lat2
        ((List.range N).filter fun c => decide (assign c = t))
        KState.init).hist j
      = cellsCount K rs bf nx ny nz lat1 lat2
          ((List.range N).filter fun c => decide (assign c = t)) j % UINT_MOD := by
    intro t _
    rw [engineCells_hist _ _ _ _ _ _ _ _ _ _ _ init_bounded]
    simp [KState.init]
  rw [List.map_congr_left hmap, foldl_mod_add _ 0 uint_mod_pos, Nat.zero_add,
    sum_map_mod]
  unfold cellsCount
  exact congrArg (fun s => s % UINT_MOD)
    (sum_partition T (List.range N) assign _ (fun c _ => hassign c))

/-- The OpenMP engine's histogram: identical to the reference count modulo
`2^32`, for any cell-to-thread schedule covering all threads. -/
theorem countpairsNopbcOMP_hist (D1 D2 : List Point) (b : BBox) (autocorr : Bool)
    (rpmax : ℚ) (numthreads K : ℕ) (rupp : ℕ → ℚ) (assign : ℕ → ℕ) (j : ℕ)
    (hassign : ∀ c, assign c < numthreads) :
    countpairsNopbcOMP D1 D2 b autocorr rpmax numthreads K rupp assign j
      = pairCountSpec K rupp b (binRefineFactor numthreads) rpmax D1
          (if autocorr then D1 else D2) j % UINT_MOD := by
  cases autocorr with
  | false =>
    simp only [countpairsNopbcOMP, Bool.false_eq_true, if_false]
    rw [engineCells_partition _ _ _ _ _ _ _ _ _ _ _ _ hassign, cellsCount_eq_spec]
  | true =>
    simp only [countpairsNopbcOMP, if_true]
    rw [engineCells_partition _ _ _ _ _ _ _ _ _ _ _ _ hassign, cellsCount_eq_spec]

theorem binRefineFactor_pos (T : ℕ) : 1 ≤ binRefineFactor T := by
  unfold binRefineFactor
  split <;> omega

/-- C5: for a fixed input whose bin range fits under `rpmax`, the OpenMP
engine returns the same histogram as the serial engine for every thread
count and every static cell schedule: per-thread counts are reduced by
`unsigned int` addition, and the coarser threaded lattice
(`bin_refine_factor` 1 instead of 2) still reaches every contributing
pair. -/
theorem claim_C5_thread_independence (D1 D2 : List Point) (b : BBox)
    (autocorr : Bool) (rpmax : ℚ) (numthreads K : ℕ) (rupp : ℕ → ℚ)
    (assign : ℕ → ℕ) (j : ℕ)
    (hassign : ∀ c, assign c < numthreads)
    (hx : b.xmin < b.xmax) (hy : b.ymin < b.ymax) (hz : b.zmin < b.zmax)
    (hr : 0 < rpmax)
    (hK : ruppSqr rupp (K - 1) ≤ rpmax * rpmax) :
    countpairsNopbcOMP D1 D2 b autocorr rpmax numthreads K rupp assign j
      = (countpairsNopbc D1 D2 b autocorr rpmax 1 K rupp).hist j := by
  rw [countpairsNopbcOMP_hist D1 D2 b autocorr rpmax numthreads K rupp assign j
      hassign,
    countpairsNopbc_hist,
    pairCountSpec_coverage K rupp b (binRefineFactor numthreads) rpmax D1
      (if autocorr then D1 else D2) j hx hy hz hr
      (binRefineFactor_pos numthreads) hK,
    pairCountSpec_coverage K rupp b (binRefineFactor 1) rpmax D1
      (if autocorr then D1 else D2) j hx hy hz hr (binRefineFactor_pos 1) hK]

theorem claim_C5_witness :
    countpairsNopbcOMP [⟨0, 0, 0⟩] [] ⟨0, 1, 0, 1, 0, 1⟩ true 1 2 2
        (fun i => (i : ℚ)) (fun c => c % 2) 1
      = (countpairsNopbc [⟨0, 0, 0⟩] [] ⟨0, 1, 0, 1, 0, 1⟩ true 1 1 2
          (fun i => (i : ℚ))).hist 1 :=
  claim_C5_thread_independence [⟨0, 0, 0⟩] [] ⟨0, 1, 0, 1, 0, 1⟩ true 1 2 2
    (fun i => (i : ℚ)) (fun c => c % 2) 1
    (fun c => Nat.mod_lt c (by decide))
    (by norm_num) (by norm_num) (by norm_num) (by norm_num)
    (by norm_num [ruppSqr])

/-! ### Claim C2: total-count conservation -/

theorem sqdist_self (p : Point) : sqdist p p = 0 := by
  unfold sqdist
  ring

theorem sum_map_const {α : Type} (l : List α) (c : ℕ) :
    (l.map fun _ => c).sum = l.length * c := by
  induction l with
  | nil => simp
  | cons a l ih =>
    simp only [List.map_cons, List.sum_cons, List.length_cons, ih]
    ring

theorem sum_replicate_nat (n c : ℕ) : (List.replicate n c).sum = n * c := by
  induction n with
  | zero => simp
  | succ n ih =>
    rw [List.replicate_succ, List.sum_cons, ih]
    ring

theorem countP_replicate {α : Type} (n : ℕ) (a : α) (p : α → Bool) :
    (List.replicate n a).countP p = if p a then n else 0 := by
  induction n with
  | zero => simp [List.countP_nil]
  | succ n ih =>
    rw [List.replicate_succ, List.countP_cons, ih]
    by_cases hp : p a
    · rw [if_pos hp, if_pos hp]
      simp [hp]
    · rw [if_neg hp, if_neg hp]
      simp [hp]

theorem sum_map_le {α : Type} (l : List α) (f : α → ℕ) (c : ℕ)
    (h : ∀ a ∈ l, f a ≤ c) : (l.map f).sum ≤ l.length * c := by
  induction l with
  | nil => simp
  | cons a l ih =>
    simp only [List.map_cons, List.sum_cons, List.length_cons]
    have h1 := h a (List.mem_cons_self a l)
    have h2 := ih (fun a' ha' => h a' (List.mem_cons_of_mem a ha'))
    calc f a + (l.map f).sum ≤ c + l.length * c := by omega
    _ = (l.length + 1) * c := by ring

theorem pairCountTotal_le (K : ℕ) (rupp : ℕ → ℚ) (D1 D2 : List Point) (j : ℕ) :
    pairCountTotal K rupp D1 D2 j ≤ D1.length * D2.length := by
  unfold pairCountTotal
  exact sum_map_le D1 _ D2.length (fun p _ => List.countP_le_length _)

theorem finsum_list_swap {α : Type} (s : Finset ℕ) (l : List α) (f : ℕ → α → ℕ) :
    s.sum (fun k => (l.map (f k)).sum) = (l.map fun a => s.sum fun k => f k a).sum := by
  induction l with
  | nil => simp
  | cons a l ih =>
    simp only [List.map_cons, List.sum_cons]
    rw [Finset.sum_add_distrib, ih]

theorem sum_map_eq_card_sub {α : Type} [DecidableEq α] (l : List α) (p : α) (s : ℕ)
    (hnd : l.Nodup) (hp : p ∈ l) :
    (l.map fun q => if q = p then s else 1).sum = (l.length - 1) + s := by
  induction l with
  | nil => cases hp
  | cons a l ih =>
    rcases List.nodup_cons.mp hnd with ⟨ha, hnd'⟩
    simp only [List.map_cons, List.sum_cons, List.length_cons]
    rcases List.mem_cons.mp hp with heq | hp'
    · rw [if_pos heq.symm]
      have hz : (l.map fun q => if q = p then s else 1) = l.map fun _ => 1 :=
        List.map_congr_left (fun q hq =>
          if_neg (by rintro rfl; rw [heq] at hq; exact ha hq))
      rw [hz, sum_map_const]
      omega
    · rw [if_neg (by rintro heq; rw [← heq] at hp'; exact ha hp'), ih hnd' hp']
      have := List.length_pos_of_mem hp'
      omega

/-- A pair whose squared distance lies in `[rupp[0]², rupp[K-1]²)` lands in
some bin `k ∈ [1, K-1]`. -/
theorem pairBin_total {K : ℕ} {rs : ℕ → ℚ} {r2 : ℚ}
    (hK : 2 ≤ K) (h0 : rs 0 ≤ r2) (hKlt : r2 < rs (K - 1)) :
    ∃ k, pairBin K rs r2 = some k ∧ 1 ≤ k ∧ k ≤ K - 1 := by
  unfold pairBin
  rw [if_neg (by push_neg; exact ⟨hKlt, not_lt.mp (not_lt.mpr h0)⟩)]
  rcases scanBin_some_of_le (by omega : 1 ≤ K - 1) h0 with ⟨k, hk1, hk⟩
  exact ⟨k, hk, hk1, (scanBin_isSome_bounds hk).2⟩

/-- Summing the per-bin indicator over the output bins: each pair
contributes exactly once when it lands in a bin, and zero otherwise. -/
theorem icc_sum_pairBin (K : ℕ) (rs : ℕ → ℚ) (r2 : ℚ) :
    (Finset.Icc 1 (K - 1)).sum (fun k => if pairBin K rs r2 = some k then 1 else 0)
      = if (pairBin K rs r2).isSome then 1 else 0 := by
  rcases h : pairBin K rs r2 with _ | k0
  · simp
  · have hb : 1 ≤ k0 ∧ k0 ≤ K - 1 := by
      unfold pairBin at h
      split at h
      · cases h
      · exact ⟨(scanBin_isSome_bounds h).1, (scanBin_isSome_bounds h).2⟩
    have hcongr : ∀ k ∈ Finset.Icc 1 (K - 1),
        (if (some k0 : Option ℕ) = some k then (1 : ℕ) else 0)
          = if k0 = k then 1 else 0 := by
      intro k _
      by_cases hk : k0 = k
      · rw [if_pos (by rw [hk]), if_pos hk]
      · rw [if_neg (by simpa using hk), if_neg hk]
    rw [Finset.sum_congr rfl hcongr, Finset.sum_ite_eq]
    rw [if_pos (Finset.mem_Icc.mpr hb)]
    rfl

/-- Under the bin-edge contract, summing the unconditional per-bin counts
over all output bins counts every ordered pair once, plus each self-pair
exactly when `rupp 0 = 0`. -/
theorem pairCountTotal_sum (K : ℕ) (rupp : ℕ → ℚ) (D1 : List Point)
    (hK : 2 ≤ K)
    (hnn : 0 ≤ rupp 0)
    (hmono : ∀ j, j ≤ K - 1 → ∀ i, i < j → rupp i < rupp j)
    (hnd : D1.Nodup)
    (hcover : ∀ p ∈ D1, ∀ q ∈ D1, sqdist p q < ruppSqr rupp (K - 1))
    (hmin : ∀ p ∈ D1, ∀ q ∈ D1, p ≠ q → ruppSqr rupp 0 ≤ sqdist p q) :
    (Finset.Icc 1 (K - 1)).sum (fun k => pairCountTotal K rupp D1 D1 k)
      = D1.length * ((D1.length - 1) + (if rupp 0 = 0 then 1 else 0)) := by
  unfold pairCountTotal
  rw [finsum_list_swap]
  have hper : ∀ p ∈ D1,
      (Finset.Icc 1 (K - 1)).sum (fun k => D1.countP fun q =>
        decide (pairBin K (ruppSqr rupp) (sqdist p q) = some k))
      = (D1.length - 1) + (if rupp 0 = 0 then 1 else 0) := by
    intro p hp
    have hc : ∀ k ∈ Finset.Icc 1 (K - 1),
        (D1.countP fun q => decide (pairBin K (ruppSqr rupp) (sqdist p q) = some k))
        = (D1.map fun q =>
            if pairBin K (ruppSqr rupp) (sqdist p q) = some k then 1 else 0).sum := by
      intro k _
      rw [countP_eq_sum_map]
      apply congrArg
      apply List.map_congr_left
      intro q _
      by_cases h : pairBin K (ruppSqr rupp) (sqdist p q) = some k
      · rw [if_pos (by simpa using h), if_pos h]
      · rw [if_neg (by simpa using h), if_neg h]
    rw [Finset.sum_congr rfl hc, finsum_list_swap]
    have hq : ∀ q ∈ D1,
        (Finset.Icc 1 (K - 1)).sum (fun k =>
          if pairBin K (ruppSqr rupp) (sqdist p q) = some k then 1 else 0)
        = (if q = p then (if rupp 0 = 0 then 1 else 0) else 1) := by
      intro q hqmem
      rw [icc_sum_pairBin]
      by_cases hqp : q = p
      · rw [hqp, sqdist_self, if_pos rfl]
        by_cases h0 : rupp 0 = 0
        · have hlt : (0 : ℚ) < ruppSqr rupp (K - 1) :=
            ruppSqr_pos hnn hmono (by omega) (le_refl _)
          have h00 : ruppSqr rupp 0 ≤ (0 : ℚ) := by
            unfold ruppSqr
            rw [h0]
            norm_num
          rcases pairBin_total hK h00 hlt with ⟨k, hkeq, _, _⟩
          rw [hkeq, if_pos h0]
          rfl
        · have hpos : 0 < rupp 0 := lt_of_le_of_ne hnn (Ne.symm h0)
          have h0lt : (0 : ℚ) < ruppSqr rupp 0 := mul_pos hpos hpos
          rw [pairBin_out K (ruppSqr rupp) 0 (Or.inr h0lt), if_neg h0]
          rfl
      · have hge : ruppSqr rupp 0 ≤ sqdist p q :=
          hmin p hp q hqmem (fun h => hqp h.symm)
        have hlt : sqdist p q < ruppSqr rupp (K - 1) := hcover p hp q hqmem
        rcases pairBin_total hK hge hlt with ⟨k, hkeq, _, _⟩
        rw [hkeq, if_neg hqp]
        rfl
    rw [List.map_congr_left hq]
    exact sum_map_eq_card_sub D1 p _ hnd hp
  rw [List.map_congr_left hper, sum_map_const]

/-- C2 (amended): for an autocorrelation run over `N` distinct points whose
bin edges cover the cloud (`rupp[0]² ≤ r² < rupp[K-1]²` for every distinct
pair, `rupp[K-1] ≤ rpmax`) — and provided `N² < 2^32` so the `unsigned int`
counters do not wrap — the output histogram sums to `N·(N-1)`, plus `N`
when `rupp 0 = 0` puts the self-pairs in bin 1. -/
theorem claim_C2_total_count (D1 D2 : List Point) (b : BBox) (rpmax : ℚ)
    (numthreads K : ℕ) (rupp : ℕ → ℚ)
    (hK : 2 ≤ K) (hnn : 0 ≤ rupp 0)
    (hmono : ∀ j, j ≤ K - 1 → ∀ i, i < j → rupp i < rupp j)
    (hx : b.xmin < b.xmax) (hy : b.ymin < b.ymax) (hz : b.zmin < b.zmax)
    (hr : 0 < rpmax)
    (hrK : ruppSqr rupp (K - 1) ≤ rpmax * rpmax)
    (hnd : D1.Nodup)
    (hcover : ∀ p ∈ D1, ∀ q ∈ D1, sqdist p q < ruppSqr rupp (K - 1))
    (hmin : ∀ p ∈ D1, ∀ q ∈ D1, p ≠ q → ruppSqr rupp 0 ≤ sqdist p q)
    (hN : D1.length * D1.length < UINT_MOD) :
    (Finset.Icc 1 (K - 1)).sum
        (fun k => (countpairsNopbc D1 D2 b true rpmax numthreads K rupp).hist k)
      = D1.length * (D1.length - 1) + (if rupp 0 = 0 then D1.length else 0) := by
  have hhist : ∀ k ∈ Finset.Icc 1 (K - 1),
      (countpairsNopbc D1 D2 b true rpmax numthreads K rupp).hist k
      = pairCountTotal K rupp D1 D1 k := by
    intro k _
    rw [countpairsNopbc_hist]
    simp only [if_true]
    rw [pairCountSpec_coverage K rupp b (binRefineFactor numthreads) rpmax D1 D1 k
      hx hy hz hr (binRefineFactor_pos numthreads) hrK]
    exact Nat.mod_eq_of_lt (lt_of_le_of_lt (pairCountTotal_le K rupp D1 D1 k) hN)
  rw [Finset.sum_congr rfl hhist,
    pairCountTotal_sum K rupp D1 hK hnn hmono hnd hcover hmin]
  by_cases h0 : rupp 0 = 0
  · rw [if_pos h0, if_pos h0, Nat.mul_add, Nat.mul_one]
  · rw [if_neg h0, if_neg h0, Nat.add_zero, Nat.add_zero]

theorem claim_C2_witness :
    (Finset.Icc 1 (2 - 1)).sum
        (fun k => (countpairsNopbc [⟨0, 0, 0⟩, ⟨1, 0, 0⟩] [] ⟨-1, 2, -1, 2, -1, 2⟩
          true 2 1 2 (fun i => if i = 0 then (0 : ℚ) else 2)).hist k) = 4 := by
  have h := claim_C2_total_count [⟨0, 0, 0⟩, ⟨1, 0, 0⟩] [] ⟨-1, 2, -1, 2, -1, 2⟩
    2 1 2 (fun i => if i = 0 then (0 : ℚ) else 2)
    (by decide) (by norm_num)
    (fun j hj i hi => by
      have hj1 : j = 1 := by omega
      have hi0 : i = 0 := by omega
      rw [hj1, hi0]
      norm_num)
    (by norm_num) (by norm_num) (by norm_num) (by norm_num)
    (by norm_num [ruppSqr])
    (by decide)
    (by
      intro p hp q hq
      fin_cases hp <;> fin_cases hq <;> norm_num [sqdist, ruppSqr])
    (by
      intro p hp q hq hne
      fin_cases hp <;> fin_cases hq <;>
        first
          | exact absurd rfl hne
          | norm_num [sqdist, ruppSqr])
    (by decide)
  rw [h]
  norm_num

/-- C2 counterexample: with `N = 2^16` coincident points, `rupp = [0, 2]`
(edges covering the zero-diameter cloud, zero in bin 1), the claimed total
`N·(N-1) + N = 2^32` overflows the `unsigned int` counters and the engine
reports a histogram sum of 0 instead. -/
theorem claim_C2_counterexample :
    (countpairsNopbc (List.replicate (2 ^ 16) (⟨0, 0, 0⟩ : Point)) []
        ⟨0, 1, 0, 1, 0, 1⟩ true 2 1 2 (fun i => if i = 0 then (0 : ℚ) else 2)).hist 1
      ≠ 2 ^ 16 * (2 ^ 16 - 1) + 2 ^ 16 := by
  have hnb : inNbhd ⟨0, 1, 0, 1, 0, 1⟩ (binRefineFactor 1) 2
      (⟨0, 0, 0⟩ : Point) (⟨0, 0, 0⟩ : Point) := by
    unfold inNbhd
    refine ⟨?_, ?_, ?_⟩ <;> simp
  have hpb : pairBin 2 (ruppSqr fun i => if i = 0 then (0 : ℚ) else 2)
      (sqdist ⟨0, 0, 0⟩ ⟨0, 0, 0⟩) = some 1 := by
    rw [sqdist_self]
    unfold pairBin
    rw [if_neg (by norm_num [ruppSqr])]
    simp [scanBin, ruppSqr]
  have hpred : (fun q => decide (inNbhd ⟨0, 1, 0, 1, 0, 1⟩ (binRefineFactor 1) 2
      (⟨0, 0, 0⟩ : Point) q
      ∧ pairBin 2 (ruppSqr fun i => if i = 0 then (0 : ℚ) else 2)
          (sqdist ⟨0, 0, 0⟩ q) = some 1)) (⟨0, 0, 0⟩ : Point) = true := by
    dsimp only
    rw [decide_eq_true_eq]
    exact ⟨hnb, hpb⟩
  have hspec : pairCountSpec 2 (fun i => if i = 0 then (0 : ℚ) else 2)
      ⟨0, 1, 0, 1, 0, 1⟩ (binRefineFactor 1) 2
      (List.replicate (2 ^ 16) (⟨0, 0, 0⟩ : Point))
      (List.replicate (2 ^ 16) (⟨0, 0, 0⟩ : Point)) 1 = 2 ^ 16 * 2 ^ 16 := by
    unfold pairCountSpec
    rw [List.map_replicate, countP_replicate, if_pos hpred, sum_replicate_nat]
  rw [countpairsNopbc_hist]
  simp only [if_true]
  rw [hspec]
  norm_num [UINT_MOD]
